import Mathlib

/-!
# Verification of the wandern migration tool against its specification

Shallow embedding of the core of the `wandern` database-migration tool:
the revision data model (`wandern/models.py`), the database providers
(`wandern/databases/sqlite.py`, `wandern/databases/postgresql.py`), the
migration graph (`wandern/graph.py`), the migration coordinator
(`wandern/migration.py`) and the header parser (`wandern/utils.py`,
`wandern/constants.py`).

Modelling conventions:
* Timestamps (`datetime.now()` readings and `created_at` values) are
  modelled as a logical clock of type `Nat`: each provider state carries a
  `clock` that every bookkeeping insert reads and advances, abstracting a
  strictly increasing wall clock with microsecond resolution.
* User SQL execution is opaque: a statement either commits (appended to a
  log of executed statements) or raises, as decided by an oracle
  `fail : String → Bool` that models which statements the database rejects.
* The `with connection` / `connection.transaction()` brackets of the
  drivers are modelled as atomic transactions: on an exception inside the
  bracket the provider state is left unchanged (rollback).
* Python strings are `String`; scanning functions work on `List Char`.
-/

/-- `wandern.models.Revision` (pydantic model).  `created_at` is the
authoring-time timestamp, abstracted to a logical clock value. -/
structure Revision where
  revision_id : String
  down_revision_id : Option String
  message : String
  tags : Option (List String)
  author : Option String
  up_sql : Option String
  down_sql : Option String
  created_at : Nat
deriving Repr, DecidableEq

/-- A row of the SQLite bookkeeping table (`wandern/databases/sqlite.py`):
`tags` is a comma-joined `TEXT` column (NULL when the revision has no
tags), `created_at` the `datetime.now().isoformat()` reading abstracted to
the logical clock. -/
structure SRow where
  revision_id : String
  down_revision_id : Option String
  message : String
  tags : Option String
  author : Option String
  created_at : Nat
deriving Repr, DecidableEq

/-- State of the SQLite database as the provider observes it: whether the
bookkeeping table exists, its rows in insertion order, the log of committed
user SQL statements and the logical clock. -/
structure SDB where
  tableExists : Bool
  rows : List SRow
  userLog : List String
  clock : Nat
deriving Repr, DecidableEq

/-- Errors surfaced by the embedded database layer. -/
inductive DBErr where
  /-- the user's SQL statement was rejected by the database -/
  | sqlError (stmt : String)
  /-- the bookkeeping table does not exist -/
  | noSuchTable
  /-- PRIMARY KEY violation on `revision_id` -/
  | uniqueViolation (id : String)
  /-- `iter_from` / `get_node` style lookup failure in the service layer -/
  | valueError (msg : String)
deriving Repr, DecidableEq

/-- `",".join(tags) if revision.tags else None` from
`SQLiteProvider.migrate_up`: the empty list and an absent list are both
falsy in Python and map to NULL. -/
def joinTags : Option (List String) → Option String
  | none => none
  | some [] => none
  | some ts => some (String.intercalate "," ts)

/-- The bookkeeping row inserted for `rev` by `SQLiteProvider.migrate_up`
when the clock reads `now`: every column except `created_at` mirrors the
revision, `created_at` is `datetime.now()` at application time. -/
def sqliteRowOf (rev : Revision) (now : Nat) : SRow :=
  { revision_id := rev.revision_id
    down_revision_id := rev.down_revision_id
    message := rev.message
    tags := joinTags rev.tags
    author := rev.author
    created_at := now }

/-- The bookkeeping `INSERT` of `SQLiteProvider.migrate_up`: fails when
the bookkeeping table is missing or the `revision_id` PRIMARY KEY is
violated; on success it appends the row stamped with the current clock,
records `log` as the committed statement log and returns
`cursor.rowcount` (1).  The INSERT is DML, so `sqlite3` wraps it in an
implicit transaction and a failing INSERT never leaves a partial row;
the error value carries no state. -/
def sqliteInsertRow (db : SDB) (rev : Revision) (log : List String) :
    Except DBErr (SDB × Int) :=
  match db.tableExists with
  | false => Except.error DBErr.noSuchTable
  | true =>
    match db.rows.any (fun r => r.revision_id == rev.revision_id) with
    | true => Except.error (DBErr.uniqueViolation rev.revision_id)
    | false =>
      Except.ok ({ tableExists := true
                   rows := db.rows ++ [sqliteRowOf rev db.clock]
                   userLog := log
                   clock := db.clock + 1 }, 1)

/-- `SQLiteProvider.migrate_up`: inside `with self.connect() as
connection:` execute `revision.up_sql` when present, then the
bookkeeping insert.  The result identifies the failing statement or
carries the successful new state; the state actually observable after
an exception depends on `sqlite3`'s implicit-transaction rules and is
computed by `sqliteStepUp`. -/
def sqlite_migrate_up (fail : String → Bool) (db : SDB) (rev : Revision) :
    Except DBErr (SDB × Int) :=
  match rev.up_sql with
  | some q =>
    match fail q with
    | true => Except.error (DBErr.sqlError q)
    | false => sqliteInsertRow db rev (db.userLog ++ [q])
  | none => sqliteInsertRow db rev db.userLog

/-- `SQLiteProvider.migrate_down`: execute `revision.down_sql` when
present, then `DELETE ... WHERE revision_id = :revision_id`, returning the
number of deleted rows; atomic like `migrate_up`. -/
def sqliteDeleteRow (db : SDB) (rev : Revision) (log : List String) :
    Except DBErr (SDB × Int) :=
  match db.tableExists with
  | false => Except.error DBErr.noSuchTable
  | true =>
    let kept := db.rows.filter (fun r => !(r.revision_id == rev.revision_id))
    Except.ok ({ db with rows := kept, userLog := log },
               (db.rows.length - kept.length : Int))

def sqlite_migrate_down (fail : String → Bool) (db : SDB) (rev : Revision) :
    Except DBErr (SDB × Int) :=
  match rev.down_sql with
  | some q =>
    match fail q with
    | true => Except.error (DBErr.sqlError q)
    | false => sqliteDeleteRow db rev (db.userLog ++ [q])
  | none => sqliteDeleteRow db rev db.userLog

/-- `SQLiteProvider.create_table_migration` (`CREATE TABLE IF NOT EXISTS`):
idempotent. -/
def sqlite_create_table (db : SDB) : SDB := { db with tableExists := true }

/-- Insertion step of `ORDER BY created_at DESC`: place `r` before the
first row whose `created_at` is smaller. -/
def insertByDesc (r : SRow) : List SRow → List SRow
  | [] => [r]
  | x :: xs => if x.created_at < r.created_at then r :: x :: xs else x :: insertByDesc r xs

/-- `ORDER BY created_at DESC` over the stored rows. -/
def sortDesc (rows : List SRow) : List SRow := rows.foldr insertByDesc []

/-- `row["tags"].split(",") if row["tags"] else []` — Python
`str.split(",")` (splits at every comma, keeping empty segments). -/
def splitCommaL : List Char → List (List Char)
  | [] => [[]]
  | c :: rest =>
    if c = ',' then [] :: splitCommaL rest
    else
      match splitCommaL rest with
      | seg :: segs => (c :: seg) :: segs
      | [] => [[c]]

/-- String-level wrapper of `splitCommaL`. -/
def splitComma (s : String) : List String := (splitCommaL s.data).map List.asString

/-- Reconstruction of a `Revision` from a bookkeeping row, as done by
`SQLiteProvider.get_head_revision` / `list_migrations`: tags are split on
commas (NULL becomes the empty list), the SQL bodies are absent. -/
def sqliteRowToRevision (r : SRow) : Revision :=
  { revision_id := r.revision_id
    down_revision_id := r.down_revision_id
    message := r.message
    tags := some (match r.tags with | some s => splitComma s | none => [])
    author := r.author
    up_sql := none
    down_sql := none
    created_at := r.created_at }

/-- `SQLiteProvider.get_head_revision`: `SELECT * ... ORDER BY created_at
DESC LIMIT 1`; errors when the bookkeeping table does not exist. -/
def sqlite_get_head_revision (db : SDB) : Except DBErr (Option Revision) :=
  match db.tableExists with
  | false => Except.error DBErr.noSuchTable
  | true => Except.ok ((sortDesc db.rows).head?.map sqliteRowToRevision)

section PG

/-- A row of the PostgreSQL bookkeeping table
(`wandern/databases/postgresql.py`): `tags` is a native `TEXT[]` column. -/
structure PRow where
  revision_id : String
  down_revision_id : Option String
  message : String
  tags : Option (List String)
  author : Option String
  created_at : Nat
deriving Repr, DecidableEq

/-- State of the PostgreSQL database as the provider observes it. -/
structure PDB where
  tableExists : Bool
  rows : List PRow
  userLog : List String
  clock : Nat
deriving Repr, DecidableEq

/-- The bookkeeping row inserted for `rev` by `PostgresProvider.migrate_up`
when the clock reads `now`: tags are stored natively, `created_at` is
`datetime.now()` at application time. -/
def pgRowOf (rev : Revision) (now : Nat) : PRow :=
  { revision_id := rev.revision_id
    down_revision_id := rev.down_revision_id
    message := rev.message
    tags := rev.tags
    author := rev.author
    created_at := now }

/-- `PostgresProvider.migrate_up`: `with connection.transaction():`
execute `revision.up_sql` when present, insert the bookkeeping row, return
`result.rowcount` (1); the transaction rolls back as a whole on error. -/
def pgInsertRow (db : PDB) (rev : Revision) (log : List String) :
    Except DBErr (PDB × Int) :=
  match db.tableExists with
  | false => Except.error DBErr.noSuchTable
  | true =>
    match db.rows.any (fun r => r.revision_id == rev.revision_id) with
    | true => Except.error (DBErr.uniqueViolation rev.revision_id)
    | false =>
      Except.ok ({ tableExists := true
                   rows := db.rows ++ [pgRowOf rev db.clock]
                   userLog := log
                   clock := db.clock + 1 }, 1)

def pg_migrate_up (fail : String → Bool) (db : PDB) (rev : Revision) :
    Except DBErr (PDB × Int) :=
  match rev.up_sql with
  | some q =>
    match fail q with
    | true => Except.error (DBErr.sqlError q)
    | false => pgInsertRow db rev (db.userLog ++ [q])
  | none => pgInsertRow db rev db.userLog

def pgDeleteRow (db : PDB) (rev : Revision) (log : List String) :
    Except DBErr (PDB × Int) :=
  match db.tableExists with
  | false => Except.error DBErr.noSuchTable
  | true =>
    let kept := db.rows.filter (fun r => !(r.revision_id == rev.revision_id))
    Except.ok ({ db with rows := kept, userLog := log },
               (db.rows.length - kept.length : Int))

/-- `PostgresProvider.migrate_down`: execute `revision.down_sql` when
present, then delete the row keyed by `revision_id`, atomically. -/
def pg_migrate_down (fail : String → Bool) (db : PDB) (rev : Revision) :
    Except DBErr (PDB × Int) :=
  match rev.down_sql with
  | some q =>
    match fail q with
    | true => Except.error (DBErr.sqlError q)
    | false => pgDeleteRow db rev (db.userLog ++ [q])
  | none => pgDeleteRow db rev db.userLog

end PG


/-- Observable effect of one SQLite `migrate_up` call, including the
exception path.  Python's `sqlite3` (the default `isolation_level` used
by `SQLiteProvider.connect`) opens an implicit transaction only before a
DML statement (INSERT/UPDATE/DELETE/REPLACE); any other statement — in
particular the DDL a migration typically runs — executes in autocommit
mode and is committed as soon as it finishes.  So when the bookkeeping
INSERT raises, the rollback performed by `with connection:` undoes only
the INSERT's implicit transaction: a successfully executed non-DML
`up_sql` (statements classified by the oracle `dml`) has already
committed and its effect survives.  Only when `up_sql` itself failed,
was absent, or was DML covered by the same implicit transaction is the
pre-call state observable. -/
def sqliteStepUp (fail dml : String → Bool) (db : SDB) (rev : Revision) :
    SDB × Option DBErr :=
  match sqlite_migrate_up fail db rev with
  | Except.ok (db2, _) => (db2, none)
  | Except.error e =>
    match rev.up_sql with
    | none => (db, some e)
    | some q =>
      match fail q with
      | true => (db, some e)
      | false =>
        match dml q with
        | true => (db, some e)
        | false => ({ db with userLog := db.userLog ++ [q] }, some e)

/-- Observable effect of one PostgreSQL `migrate_up` call: psycopg's
`connection.transaction()` block covers every statement, and PostgreSQL
DDL is transactional, so on an exception the whole transaction rolls
back and the pre-call state is observable. -/
def pgStepUp (fail : String → Bool) (db : PDB) (rev : Revision) :
    PDB × Option DBErr :=
  match pg_migrate_up fail db rev with
  | Except.ok (db2, _) => (db2, none)
  | Except.error e => (db, some e)

theorem sqlite_migrate_up_ok {fail : String → Bool} {db : SDB} {rev : Revision}
    {db2 : SDB} {n : Int} (h : sqlite_migrate_up fail db rev = Except.ok (db2, n)) :
    n = 1 ∧ db2.rows = db.rows ++ [sqliteRowOf rev db.clock] ∧ db2.clock = db.clock + 1 ∧
      (db2.userLog = db.userLog ∨ ∃ q, rev.up_sql = some q ∧ db2.userLog = db.userLog ++ [q]) := by
  have hins : ∀ log, sqliteInsertRow db rev log = Except.ok (db2, n) →
      n = 1 ∧ db2.rows = db.rows ++ [sqliteRowOf rev db.clock] ∧
        db2.clock = db.clock + 1 ∧ db2.userLog = log := by
    intro log hlog
    unfold sqliteInsertRow at hlog
    cases ht : db.tableExists <;> rw [ht] at hlog
    · exact absurd hlog (by simp)
    cases ha : db.rows.any (fun r => r.revision_id == rev.revision_id) <;>
        rw [ha] at hlog
    · simp only [Except.ok.injEq, Prod.mk.injEq] at hlog
      obtain ⟨h2, h1⟩ := hlog
      subst h2
      exact ⟨h1.symm, rfl, rfl, rfl⟩
    · exact absurd hlog (by simp)
  unfold sqlite_migrate_up at h
  cases hup : rev.up_sql with
  | none =>
    rw [hup] at h
    obtain ⟨h1, h2, h3, h4⟩ := hins _ h
    exact ⟨h1, h2, h3, Or.inl h4⟩
  | some q =>
    rw [hup] at h
    cases hf : fail q
    · simp only [hf] at h
      obtain ⟨h1, h2, h3, h4⟩ := hins _ h
      exact ⟨h1, h2, h3, Or.inr ⟨q, rfl, h4⟩⟩
    · simp [hf] at h

theorem pg_migrate_up_ok {fail : String → Bool} {db : PDB} {rev : Revision}
    {db2 : PDB} {n : Int} (h : pg_migrate_up fail db rev = Except.ok (db2, n)) :
    n = 1 ∧ db2.rows = db.rows ++ [pgRowOf rev db.clock] ∧ db2.clock = db.clock + 1 := by
  have hins : ∀ log, pgInsertRow db rev log = Except.ok (db2, n) →
      n = 1 ∧ db2.rows = db.rows ++ [pgRowOf rev db.clock] ∧ db2.clock = db.clock + 1 := by
    intro log hlog
    unfold pgInsertRow at hlog
    cases ht : db.tableExists <;> rw [ht] at hlog
    · exact absurd hlog (by simp)
    cases ha : db.rows.any (fun r => r.revision_id == rev.revision_id) <;>
        rw [ha] at hlog
    · simp only [Except.ok.injEq, Prod.mk.injEq] at hlog
      obtain ⟨h2, h1⟩ := hlog
      subst h2
      exact ⟨h1.symm, rfl, rfl⟩
    · exact absurd hlog (by simp)
  unfold pg_migrate_up at h
  cases hup : rev.up_sql with
  | none => exact hins _ (by rw [hup] at h; exact h)
  | some q =>
    rw [hup] at h
    cases hf : fail q
    · simp only [hf] at h
      exact hins _ h
    · simp [hf] at h

/-- C2 (documenting the code bug): the claim's atomicity holds for the
PostgreSQL provider but not for the SQLite provider.  In
`SQLiteProvider.migrate_up`, a successfully executed non-DML `up_sql`
(e.g. `CREATE TABLE`) autocommits before the bookkeeping INSERT opens
its own implicit transaction, so when the INSERT raises — here a
`revision_id` PRIMARY KEY violation — the `with connection:` rollback
cannot undo it: the observable state keeps the committed `up_sql`
effect (the committed-statement log differs from the pre-call one)
while holding no bookkeeping row for the revision, contradicting
"contains neither any side effect of r's up_sql nor a bookkeeping row".
The PostgreSQL provider, whose `connection.transaction()` covers every
statement, is atomic on error, and on success it inserts exactly one
bookkeeping row and returns 1. -/
theorem c2_theorem (fail dml : String → Bool) (db : SDB) (pdb : PDB)
    (rev : Revision) (q : String)
    (hq : rev.up_sql = some q) (hfq : fail q = false) (hddl : dml q = false)
    (ht : db.tableExists = true)
    (hdup : db.rows.any (fun r => r.revision_id == rev.revision_id) = true) :
    sqliteStepUp fail dml db rev =
      ({ db with userLog := db.userLog ++ [q] },
        some (DBErr.uniqueViolation rev.revision_id)) ∧
    (sqliteStepUp fail dml db rev).1.userLog ≠ db.userLog ∧
    (sqliteStepUp fail dml db rev).1.rows = db.rows ∧
    (∀ e, pg_migrate_up fail pdb rev = Except.error e →
       pgStepUp fail pdb rev = (pdb, some e)) ∧
    (∀ pdb2 n, pg_migrate_up fail pdb rev = Except.ok (pdb2, n) →
       n = 1 ∧ pdb2.rows = pdb.rows ++ [pgRowOf rev pdb.clock]) := by
  have hmu : sqlite_migrate_up fail db rev =
      Except.error (DBErr.uniqueViolation rev.revision_id) := by
    unfold sqlite_migrate_up sqliteInsertRow
    simp only [hq, hfq, ht, hdup]
  have hstep : sqliteStepUp fail dml db rev =
      ({ db with userLog := db.userLog ++ [q] },
        some (DBErr.uniqueViolation rev.revision_id)) := by
    unfold sqliteStepUp
    simp only [hmu, hq, hfq, hddl]
  refine ⟨hstep, ?_, ?_, ?_, ?_⟩
  · rw [hstep]
    intro hcon
    have hlen := congrArg List.length hcon
    simp at hlen
  · rw [hstep]
  · intro e he
    unfold pgStepUp
    rw [he]
  · intro pdb2 n h
    obtain ⟨h1, h2, -⟩ := pg_migrate_up_ok h
    exact ⟨h1, h2⟩

/-- Witness for C2's divergence at concrete inputs: revision `r1` with a
(non-DML) `CREATE TABLE` up SQL applied over a state already holding a
row keyed `r1`: the bookkeeping insert fails with a PRIMARY KEY
violation, yet the observable state carries the `CREATE TABLE` in its
committed log — the up SQL side effect survives the exception. -/
theorem c2_witness :
    sqliteStepUp (fun _ => false) (fun _ => false)
        (SDB.mk true [SRow.mk "r1" none "m" none none 0] [] 1)
        (Revision.mk "r1" none "m" none none (some "CREATE TABLE t (x)") none 0) =
      (SDB.mk true [SRow.mk "r1" none "m" none none 0] ["CREATE TABLE t (x)"] 1,
        some (DBErr.uniqueViolation "r1")) := by
  exact (c2_theorem (fun _ => false) (fun _ => false)
      (SDB.mk true [SRow.mk "r1" none "m" none none 0] [] 1)
      (PDB.mk true [] [] 0)
      (Revision.mk "r1" none "m" none none (some "CREATE TABLE t (x)") none 0)
      "CREATE TABLE t (x)" rfl rfl rfl rfl (by decide)).1

/-- C9 (amended): the bookkeeping row inserted by a successful
`apply_up(r)` mirrors `r`'s `revision_id`, `down_revision_id`, `message`,
`author` and `tags` (tags natively in PostgreSQL, comma-joined — with
empty/absent stored as NULL — in SQLite), but its `created_at` column is
the application-time clock reading (`datetime.now()` at apply time), not
`r.created_at`. -/
theorem c9_theorem (fail : String → Bool) (db : SDB) (pdb : PDB) (rev : Revision) :
    (∀ db2 n, sqlite_migrate_up fail db rev = Except.ok (db2, n) →
       db2.rows = db.rows ++
         [{ revision_id := rev.revision_id
            down_revision_id := rev.down_revision_id
            message := rev.message
            tags := joinTags rev.tags
            author := rev.author
            created_at := db.clock }]) ∧
    (∀ pdb2 n, pg_migrate_up fail pdb rev = Except.ok (pdb2, n) →
       pdb2.rows = pdb.rows ++
         [{ revision_id := rev.revision_id
            down_revision_id := rev.down_revision_id
            message := rev.message
            tags := rev.tags
            author := rev.author
            created_at := pdb.clock }]) := by
  constructor
  · intro db2 n h
    exact (sqlite_migrate_up_ok h).2.1
  · intro pdb2 n h
    exact (pg_migrate_up_ok h).2.1

/-- Witness for C9's amended theorem at a concrete successful
application. -/
theorem c9_witness :
    sqlite_migrate_up (fun _ => false) (SDB.mk true [] [] 7)
        (Revision.mk "r1" none "m" (some ["a", "b"]) (some "alice") none none 42) =
      Except.ok (SDB.mk true [SRow.mk "r1" none "m" (some "a,b") (some "alice") 7] [] 8, 1) ∧
    (SDB.mk true [SRow.mk "r1" none "m" (some "a,b") (some "alice") 7] [] 8).rows =
      [] ++ [{ revision_id := "r1", down_revision_id := none, message := "m",
               tags := joinTags (some ["a", "b"]), author := some "alice",
               created_at := 7 }] := by
  refine ⟨by rfl, ?_⟩
  exact (c9_theorem (fun _ => false) (SDB.mk true [] [] 7) (PDB.mk true [] [] 0)
      (Revision.mk "r1" none "m" (some ["a", "b"]) (some "alice") none none 42)).1
      _ 1 (by rfl)

/-- Counterexample for C9 as stated: a revision authored at time 5 and
applied at clock 0 is stored with `created_at = 0`, not 5 — the stored
`created_at` is the application time, not the authoring time. -/
theorem c9_counterexample :
    sqlite_migrate_up (fun _ => false) (SDB.mk true [] [] 0)
        (Revision.mk "r1" none "m" (some ["a"]) (some "au") none none 5) =
      Except.ok (SDB.mk true [SRow.mk "r1" none "m" (some "a") (some "au") 0] [] 1, 1) ∧
    (Revision.mk "r1" none "m" (some ["a"]) (some "au") none none 5).created_at = 5 ∧
    (SRow.mk "r1" none "m" (some "a") (some "au") 0).created_at ≠ 5 := by
  exact ⟨by rfl, rfl, by decide⟩

/-! ## Migration graph (`wandern/graph.py` on top of `networkx.DiGraph`)

A `networkx` directed graph is embedded as an insertion-ordered node list
(a Python dict of node id to optional attribute data — `none` for a node
implicitly created by `add_edge` with no attributes) plus an
insertion-ordered edge list.  `MigrationGraph.build` first inserts one
node per parsed file, then iterates `graph.nodes()` adding one edge per
non-root revision; `add_edge` implicitly inserts missing endpoints into
the node dict, and CPython raises `RuntimeError: dictionary changed size
during iteration` at the next step of an iterator over a dict that grew. -/

structure NxGraph where
  nodes : List (String × Option Revision)
  edges : List (String × String)
deriving Repr, DecidableEq

/-- Errors raised while building the graph. -/
inductive BuildErr where
  /-- CPython `RuntimeError: dictionary changed size during iteration` -/
  | runtimeDictChanged
deriving Repr, DecidableEq

/-- `graph.add_node(id, **attrs)`: insert or update, keeping dict
insertion order. -/
def nxAddNode (nodes : List (String × Option Revision)) (id : String)
    (r : Revision) : List (String × Option Revision) :=
  match nodes.any (fun p => p.1 == id) with
  | true => nodes.map (fun p => match p.1 == id with
      | true => (p.1, some r)
      | false => p)
  | false => nodes ++ [(id, some r)]

/-- Ensure a node id is present in the dict, adding it with no attribute
data when missing (the implicit insertion done by `add_edge`). -/
def ensureNode (nodes : List (String × Option Revision)) (x : String) :
    List (String × Option Revision) :=
  match nodes.any (fun p => p.1 == x) with
  | true => nodes
  | false => nodes ++ [(x, none)]

/-- `graph.add_edge(u, v)`: implicitly creates missing endpoint nodes
(with no attribute data) and is a no-op on an existing edge. -/
def nxAddEdge (g : NxGraph) (u v : String) : NxGraph :=
  match g.edges.any (fun e => e.1 == u && e.2 == v) with
  | true => { nodes := ensureNode (ensureNode g.nodes u) v, edges := g.edges }
  | false => { nodes := ensureNode (ensureNode g.nodes u) v,
               edges := g.edges ++ [(u, v)] }

/-- First phase of `MigrationGraph.build`: one `add_node` per parsed
file. -/
def buildNodesPhase (files : List Revision) : List (String × Option Revision) :=
  files.foldl (fun ns r => nxAddNode ns r.revision_id r) []

/-- Second phase of `MigrationGraph.build`: iterate the node dict adding
`down_revision_id → revision_id` edges.  `n0` is the dict size recorded
when the iterator was created; every `next()` — including the final one —
raises `RuntimeError` when the size has changed. -/
def buildEdgesPhase (n0 : Nat) : List (String × Revision) → NxGraph →
    Except BuildErr NxGraph
  | [], g =>
    match g.nodes.length == n0 with
    | true => Except.ok g
    | false => Except.error BuildErr.runtimeDictChanged
  | e :: es, g =>
    match g.nodes.length == n0 with
    | false => Except.error BuildErr.runtimeDictChanged
    | true =>
      match e.2.down_revision_id with
      | none => buildEdgesPhase n0 es g
      | some d => buildEdgesPhase n0 es (nxAddEdge g d e.2.revision_id)

/-- `MigrationGraph.build` over already-parsed revisions (file iteration
and parse failures are handled before this point in the source). -/
def build (files : List Revision) : Except BuildErr NxGraph :=
  buildEdgesPhase (buildNodesPhase files).length
    ((buildNodesPhase files).filterMap (fun p => p.2.map (fun r => (p.1, r))))
    { nodes := buildNodesPhase files, edges := [] }

/-- `build` with a default empty graph on error, for stating concrete
facts about built graphs. -/
def buildD (files : List Revision) : NxGraph :=
  match build files with
  | Except.ok g => g
  | Except.error _ => { nodes := [], edges := [] }

/-- `graph.successors(u)` in edge insertion order. -/
def succList (g : NxGraph) (u : String) : List String :=
  g.edges.filterMap (fun e => match e.1 == u with
    | true => some e.2
    | false => none)

/-- `graph.in_edges(u)`. -/
def inEdges (g : NxGraph) (u : String) : List (String × String) :=
  g.edges.filter (fun e => e.2 == u)

/-- `MigrationGraph.first`: the first node in insertion order with
in-degree 0. -/
def graph_first (g : NxGraph) : Option String :=
  (g.nodes.find? (fun p => (inEdges g p.1).length == 0)).map (fun p => p.1)

/-- Attribute data of a node (`Revision(**self._graph.nodes[u])`). -/
def nodeData (g : NxGraph) (u : String) : Option Revision :=
  (g.nodes.find? (fun p => p.1 == u)).bind (fun p => p.2)

/-- `MigrationGraph.get_node`: the revision stored for `id`, or absent
when the node does not exist. -/
def get_node (g : NxGraph) (id : String) : Option Revision := nodeData g id

/-- The `while current` walk shared by `iter` and `iter_from`: repeatedly
step to `next(successors(current), None)` and yield its data.  The walk
is fuelled by the node count: it terminates on every acyclic graph the
source terminates on (on a cyclic graph the source loops forever). -/
def iterSucc (g : NxGraph) : Nat → String → List Revision
  | 0, _ => []
  | fuel + 1, u =>
    match (succList g u).head? with
    | none => []
    | some v =>
      match nodeData g v with
      | some r => r :: iterSucc g fuel v
      | none => []

/-- `MigrationGraph.iter`: from the first in-degree-0 node along unique
successors.  (A first node without attribute data cannot arise from
`build`; the walk simply stops there.) -/
def iterList (g : NxGraph) : List Revision :=
  match graph_first g with
  | none => []
  | some f =>
    match nodeData g f with
    | some r => r :: iterSucc g g.nodes.length f
    | none => []

/-- `MigrationGraph.iter_from`: successors strictly after `start`;
`ValueError` when `start` is not a node. -/
def iter_from (g : NxGraph) (start : String) : Except DBErr (List Revision) :=
  match g.nodes.any (fun p => p.1 == start) with
  | false => Except.error (DBErr.valueError
      ("Revision: " ++ start ++ " does not exist in the graph"))
  | true => Except.ok (iterSucc g g.nodes.length start)

/-- A positional argument of a Python exception-constructor call. -/
inductive PyArg where
  | str (s : String)
  | strs (l : List String)
deriving Repr, DecidableEq

/-- An exception raised by the graph queries. -/
inductive RaisedExc where
  /-- `wandern.exceptions.DivergentbranchError(from_, to_)` -/
  | divergentBranch (fromNode : String) (toNodes : List String)
  /-- `wandern.exceptions.CycleDetected` (payload abstracted) -/
  | cycleDetected
  /-- CPython `TypeError` from a constructor-arity mismatch -/
  | typeError (msg : String)
deriving Repr, DecidableEq

/-- Calling `DivergentbranchError(*args)`: `exceptions.py` declares
`__init__(self, from_: str, to_: list[str])`, so a call with two
positional arguments builds the exception and any other arity raises
`TypeError` before the constructor body runs. -/
def callDivergentbranchError (args : List PyArg) : RaisedExc :=
  match args with
  | [PyArg.str f, PyArg.strs t] => RaisedExc.divergentBranch f t
  | _ => RaisedExc.typeError
      "DivergentbranchError.__init__ missing 1 required positional argument: to_"

/-- `MigrationGraph.check_cycles` via `nx.find_cycle`; the cycle payload
carried by `CycleDetected` is abstracted away (no claim inspects it). -/
def reachB (g : NxGraph) : Nat → String → String → Bool
  | 0, a, b => a == b
  | fuel + 1, a, b => a == b || (succList g a).any (fun c => reachB g fuel c b)

def hasCycle (g : NxGraph) : Bool :=
  g.edges.any (fun e => reachB g g.nodes.length e.2 e.1)

def check_cycles (g : NxGraph) : Except RaisedExc Unit :=
  match hasCycle g with
  | true => Except.error RaisedExc.cycleDetected
  | false => Except.ok ()

/-- `MigrationGraph.check_divergence`: scan nodes in insertion order and,
at the first node with out-degree above 1, raise
`DivergentbranchError(f"Divergent branch detected from {node} to (...)")`
— a call with a single positional argument. -/
def check_divergence (g : NxGraph) : Except RaisedExc Unit :=
  match g.nodes.find? (fun p => decide ((succList g p.1).length > 1)) with
  | none => Except.ok ()
  | some p => Except.error (callDivergentbranchError
      [PyArg.str ("Divergent branch detected from " ++ p.1 ++ " to (" ++
        String.intercalate ", " (succList g p.1) ++ ")")])

/-- `MigrationGraph.get_last_migration`: run the cycle check, then the
divergence check, then return the data of the last node in insertion
order with out-degree 0 (the scan keeps overwriting `leaf_node`). -/
def get_last_migration (g : NxGraph) : Except RaisedExc (Option Revision) :=
  match check_cycles g with
  | Except.error e => Except.error e
  | Except.ok _ =>
    match check_divergence g with
    | Except.error e => Except.error e
    | Except.ok _ =>
      match (g.nodes.filter (fun p => (succList g p.1).length == 0)).getLast? with
      | none => Except.ok none
      | some p => Except.ok p.2

/-! ## Migration coordinator (`wandern/migration.py`, SQLite provider)

`upgrade`/`downgrade` drive the provider; the database is external, so a
failing step leaves the already-committed earlier steps applied.  The
result records the final database, the revisions actually passed to
`migrate_up`/`migrate_down` (in order), and the first error if any. -/

structure RunResult where
  db : SDB
  applied : List String
  err : Option DBErr
deriving Repr, DecidableEq

/-- The upgrade loop body: `migrate_up`, `count += 1`, and
`if steps and count == steps: break` (note `steps = 0` is falsy in
Python, so a zero step limit never breaks). -/
def runUp (fail : String → Bool) (steps : Option Int) :
    List Revision → SDB → Nat → List String → RunResult
  | [], db, _, applied => ⟨db, applied, none⟩
  | r :: rest, db, count, applied =>
    match sqlite_migrate_up fail db r with
    | Except.error e => ⟨db, applied, some e⟩
    | Except.ok (db2, _) =>
      let count2 := count + 1
      let applied2 := applied ++ [r.revision_id]
      match (match steps with
             | some k => (k != 0) && ((count2 : Int) == k)
             | none => false) with
      | true => ⟨db2, applied2, none⟩
      | false => runUp fail steps rest db2 count2 applied2

/-- `MigrationService.upgrade`: ensure the bookkeeping table, read the
head, and apply `iter()` (head absent) or `iter_from(head)` (head
present) in order. -/
def upgrade (fail : String → Bool) (g : NxGraph) (db : SDB) (steps : Option Int) :
    RunResult :=
  let db2 := sqlite_create_table db
  match sqlite_get_head_revision db2 with
  | Except.error e => ⟨db2, [], some e⟩
  | Except.ok none => runUp fail steps (iterList g) db2 0 []
  | Except.ok (some head) =>
    match iter_from g head.revision_id with
    | Except.error e => ⟨db2, [], some e⟩
    | Except.ok revs => runUp fail steps revs db2 0 []

/-- The downgrade loop: `while current and (steps is None or count <
steps): migrate_down(current); if not current.down_revision_id: break;
current = get_node(current.down_revision_id); count += 1`.  Fuelled by
the node count (the source recursion is bounded by the chain length). -/
def runDown (fail : String → Bool) (g : NxGraph) (steps : Option Int) :
    Nat → SDB → Revision → Nat → List String → RunResult
  | 0, db, _, _, applied => ⟨db, applied, none⟩
  | fuel + 1, db, cur, count, applied =>
    match (match steps with
           | none => true
           | some k => decide ((count : Int) < k)) with
    | false => ⟨db, applied, none⟩
    | true =>
      match sqlite_migrate_down fail db cur with
      | Except.error e => ⟨db, applied, some e⟩
      | Except.ok (db2, _) =>
        let applied2 := applied ++ [cur.revision_id]
        match cur.down_revision_id with
        | none => ⟨db2, applied2, none⟩
        | some d =>
          match get_node g d with
          | none => ⟨db2, applied2, none⟩
          | some cur2 => runDown fail g steps fuel db2 cur2 (count + 1) applied2

/-- `MigrationService.downgrade`: no-op when the head is absent; fatal
when the head revision has no migration file on disk; otherwise walk
backward from the head. -/
def downgrade (fail : String → Bool) (g : NxGraph) (db : SDB) (steps : Option Int) :
    RunResult :=
  match sqlite_get_head_revision db with
  | Except.error e => ⟨db, [], some e⟩
  | Except.ok none => ⟨db, [], none⟩
  | Except.ok (some head) =>
    match get_node g head.revision_id with
    | none => ⟨db, [], some (DBErr.valueError
        ("Migration file for revision " ++ head.revision_id ++ " not found"))⟩
    | some cur => runDown fail g steps (g.nodes.length + 1) db cur 0 []

/-! ## C4 and C10: concrete graph facts -/

/-- The three files of the divergence scenario: `a(down=none)`,
`b(down=a)`, `c(down=a)`. -/
def divergentFiles : List Revision :=
  [Revision.mk "a" none "" none none none none 0,
   Revision.mk "b" (some "a") "" none none none none 1,
   Revision.mk "c" (some "a") "" none none none none 2]

/-- C4 (documenting the code bug): on the divergent graph built from
`a(down=none)`, `b(down=a)`, `c(down=a)`, `get_last_migration` does not
raise `DivergentbranchError` carrying the offending node and its
successors — the raise site passes a single formatted string to a
constructor requiring `(from_, to_)`, so a `TypeError` escapes instead;
and `upgrade` runs no linearity check at all: it silently applies `a`
and then the first successor `b` and stops without error. -/
theorem c4_theorem :
    get_last_migration (buildD divergentFiles) =
      Except.error (RaisedExc.typeError
        "DivergentbranchError.__init__ missing 1 required positional argument: to_") ∧
    (∀ f t, get_last_migration (buildD divergentFiles) ≠
        Except.error (RaisedExc.divergentBranch f t)) ∧
    (upgrade (fun _ => false) (buildD divergentFiles)
        (SDB.mk true [] [] 0) none).applied = ["a", "b"] ∧
    (upgrade (fun _ => false) (buildD divergentFiles)
        (SDB.mk true [] [] 0) none).err = none := by
  refine ⟨rfl, ?_, rfl, rfl⟩
  intro f t h
  rw [show get_last_migration (buildD divergentFiles) =
      Except.error (RaisedExc.typeError
        "DivergentbranchError.__init__ missing 1 required positional argument: to_")
    from rfl] at h
  exact absurd (Except.error.inj h) (by simp)

/-- Counterexample for C10 as stated: a single parsed file
`c(down=b)` with `b` absent from disk makes `build` fail — `add_edge`
grows the node dict while `build` is iterating it, raising `RuntimeError:
dictionary changed size during iteration` — rather than succeed with an
implicit `b` node. -/
theorem c10_counterexample :
    build [Revision.mk "c" (some "b") "" none none none none 0] =
      Except.error BuildErr.runtimeDictChanged := rfl
/-! ## Lemmas about `build` -/

/-- The edges the second build phase tries to add, in node order. -/
def edgesOf (es : List (String × Revision)) : List (String × String) :=
  es.filterMap (fun e => e.2.down_revision_id.map (fun d => (d, e.2.revision_id)))

theorem edgesOf_cons_none {e : String × Revision} {es : List (String × Revision)}
    (h : e.2.down_revision_id = none) : edgesOf (e :: es) = edgesOf es := by
  unfold edgesOf
  rw [List.filterMap_cons, h]
  rfl

theorem edgesOf_cons_some {e : String × Revision} {es : List (String × Revision)}
    {d : String} (h : e.2.down_revision_id = some d) :
    edgesOf (e :: es) = (d, e.2.revision_id) :: edgesOf es := by
  unfold edgesOf
  rw [List.filterMap_cons, h]
  rfl

theorem edgesOf_snd_mem : ∀ {es : List (String × Revision)} {x : String × String},
    x ∈ edgesOf es → x.2 ∈ es.map (fun e => e.2.revision_id) := by
  intro es
  induction es with
  | nil => intro x h; simp [edgesOf] at h
  | cons e es ih =>
    intro x h
    cases hd : e.2.down_revision_id with
    | none =>
      rw [edgesOf_cons_none hd] at h
      exact List.mem_cons_of_mem _ (ih h)
    | some d =>
      rw [edgesOf_cons_some hd] at h
      rcases List.mem_cons.mp h with h1 | h2
      · subst h1; exact List.mem_cons_self _ _
      · exact List.mem_cons_of_mem _ (ih h2)

theorem edgesOf_nodup : ∀ {es : List (String × Revision)},
    (es.map (fun e => e.2.revision_id)).Nodup → (edgesOf es).Nodup := by
  intro es
  induction es with
  | nil => intro _; simp [edgesOf]
  | cons e es ih =>
    intro hnd
    rw [List.map_cons, List.nodup_cons] at hnd
    cases hd : e.2.down_revision_id with
    | none => rw [edgesOf_cons_none hd]; exact ih hnd.2
    | some d =>
      rw [edgesOf_cons_some hd, List.nodup_cons]
      refine ⟨fun hmem => ?_, ih hnd.2⟩
      exact hnd.1 (edgesOf_snd_mem hmem)

theorem ensureNode_mem {nodes : List (String × Option Revision)} {x : String}
    (h : nodes.any (fun p => p.1 == x) = true) : ensureNode nodes x = nodes := by
  unfold ensureNode; rw [h]

theorem ensureNode_not_mem {nodes : List (String × Option Revision)} {x : String}
    (h : nodes.any (fun p => p.1 == x) = false) :
    ensureNode nodes x = nodes ++ [(x, none)] := by
  unfold ensureNode; rw [h]

theorem buildEdgesPhase_stuck (n0 : Nat) (es : List (String × Revision))
    (g : NxGraph) (h : g.nodes.length ≠ n0) :
    buildEdgesPhase n0 es g = Except.error BuildErr.runtimeDictChanged := by
  have hb : (g.nodes.length == n0) = false := beq_eq_false_iff_ne.mpr h
  cases es with
  | nil => unfold buildEdgesPhase; rw [hb]
  | cons e es => unfold buildEdgesPhase; rw [hb]

theorem buildEdgesPhase_cons_none {n0 : Nat} {e : String × Revision}
    {es : List (String × Revision)} {g : NxGraph} (hsz : g.nodes.length = n0)
    (hd : e.2.down_revision_id = none) :
    buildEdgesPhase n0 (e :: es) g = buildEdgesPhase n0 es g := by
  conv_lhs => unfold buildEdgesPhase
  rw [beq_iff_eq.mpr hsz, hd]

theorem buildEdgesPhase_cons_some {n0 : Nat} {e : String × Revision}
    {es : List (String × Revision)} {g : NxGraph} {d : String}
    (hsz : g.nodes.length = n0) (hd : e.2.down_revision_id = some d) :
    buildEdgesPhase n0 (e :: es) g =
      buildEdgesPhase n0 es (nxAddEdge g d e.2.revision_id) := by
  conv_lhs => unfold buildEdgesPhase
  rw [beq_iff_eq.mpr hsz, hd]

theorem nxAddEdge_fresh {g : NxGraph} {u v : String}
    (hu : g.nodes.any (fun p => p.1 == u) = true)
    (hv : g.nodes.any (fun p => p.1 == v) = true)
    (he : (u, v) ∉ g.edges) :
    nxAddEdge g u v = { nodes := g.nodes, edges := g.edges ++ [(u, v)] } := by
  have hedge : (g.edges.any (fun e => e.1 == u && e.2 == v)) = false := by
    rw [List.any_eq_false]
    intro x hx
    simp only [Bool.and_eq_true, beq_iff_eq, not_and]
    intro h1 h2
    apply he
    have hxe : x = (u, v) := by
      cases x; simp only [Prod.mk.injEq]; exact ⟨h1, h2⟩
    rwa [hxe] at hx
  unfold nxAddEdge
  rw [hedge, ensureNode_mem hu, ensureNode_mem hv]

theorem nxAddEdge_nodes_mem {g : NxGraph} {u v : String}
    (hu : g.nodes.any (fun p => p.1 == u) = true)
    (hv : g.nodes.any (fun p => p.1 == v) = true) :
    (nxAddEdge g u v).nodes = g.nodes := by
  unfold nxAddEdge
  rw [ensureNode_mem hu, ensureNode_mem hv]
  cases g.edges.any (fun e => e.1 == u && e.2 == v) <;> rfl

theorem nxAddEdge_nodes_grow {g : NxGraph} {u v : String}
    (hu : g.nodes.any (fun p => p.1 == u) = false)
    (hv : g.nodes.any (fun p => p.1 == v) = true) :
    (nxAddEdge g u v).nodes = g.nodes ++ [(u, none)] := by
  unfold nxAddEdge
  rw [ensureNode_not_mem hu]
  have hv2 : ((g.nodes ++ [(u, none)]).any (fun p => p.1 == v)) = true := by
    rw [List.any_append, hv]
    rfl
  rw [ensureNode_mem hv2]
  cases g.edges.any (fun e => e.1 == u && e.2 == v) <;> rfl

theorem buildEdgesPhase_ok (n0 : Nat) : ∀ (es : List (String × Revision)) (g : NxGraph),
    g.nodes.length = n0 →
    (∀ e ∈ es, ∀ d, e.2.down_revision_id = some d →
      g.nodes.any (fun p => p.1 == d) = true) →
    (∀ e ∈ es, g.nodes.any (fun p => p.1 == e.2.revision_id) = true) →
    (g.edges ++ edgesOf es).Nodup →
    buildEdgesPhase n0 es g =
      Except.ok { nodes := g.nodes, edges := g.edges ++ edgesOf es } := by
  intro es
  induction es with
  | nil =>
    intro g hsz _ _ _
    unfold buildEdgesPhase
    rw [beq_iff_eq.mpr hsz]
    simp [edgesOf]
  | cons e es ih =>
    intro g hsz hdown hid hnd
    cases hd : e.2.down_revision_id with
    | none =>
      rw [edgesOf_cons_none hd] at hnd
      rw [buildEdgesPhase_cons_none hsz hd, edgesOf_cons_none hd]
      exact ih g hsz (fun e2 h2 => hdown e2 (List.mem_cons_of_mem _ h2))
        (fun e2 h2 => hid e2 (List.mem_cons_of_mem _ h2)) hnd
    | some d =>
      have hdm : g.nodes.any (fun p => p.1 == d) = true :=
        hdown e (List.mem_cons_self _ _) d hd
      have him : g.nodes.any (fun p => p.1 == e.2.revision_id) = true :=
        hid e (List.mem_cons_self _ _)
      rw [edgesOf_cons_some hd] at hnd
      have hnotmem : (d, e.2.revision_id) ∉ g.edges := by
        intro hmem
        rcases List.nodup_append.mp hnd with ⟨-, -, hdisj⟩
        exact hdisj hmem (List.mem_cons_self _ _)
      rw [buildEdgesPhase_cons_some hsz hd, nxAddEdge_fresh hdm him hnotmem]
      have hres := ih { nodes := g.nodes, edges := g.edges ++ [(d, e.2.revision_id)] }
        hsz (fun e2 h2 => hdown e2 (List.mem_cons_of_mem _ h2))
        (fun e2 h2 => hid e2 (List.mem_cons_of_mem _ h2))
        (by simpa using hnd)
      rw [hres]
      rw [edgesOf_cons_some hd]
      simp

theorem buildEdgesPhase_dangling (n0 : Nat) :
    ∀ (es : List (String × Revision)) (g : NxGraph),
    g.nodes.length = n0 →
    (∀ e ∈ es, g.nodes.any (fun p => p.1 == e.2.revision_id) = true) →
    (∃ e ∈ es, ∃ d, e.2.down_revision_id = some d ∧
      g.nodes.any (fun p => p.1 == d) = false) →
    buildEdgesPhase n0 es g = Except.error BuildErr.runtimeDictChanged := by
  intro es
  induction es with
  | nil => intro g _ _ hex; simp at hex
  | cons e es ih =>
    intro g hsz hid hex
    cases hd : e.2.down_revision_id with
    | none =>
      rcases hex with ⟨e2, he2, d2, hd2, hm2⟩
      rcases List.mem_cons.mp he2 with h1 | h1
      · subst h1; rw [hd] at hd2; exact absurd hd2 (by simp)
      · rw [buildEdgesPhase_cons_none hsz hd]
        exact ih g hsz (fun e3 h3 => hid e3 (List.mem_cons_of_mem _ h3))
          ⟨e2, h1, d2, hd2, hm2⟩
    | some d =>
      rw [buildEdgesPhase_cons_some hsz hd]
      cases hm : g.nodes.any (fun p => p.1 == d) with
      | true =>
        have hnodes : (nxAddEdge g d e.2.revision_id).nodes = g.nodes :=
          nxAddEdge_nodes_mem hm (hid e (List.mem_cons_self _ _))
        rcases hex with ⟨e2, he2, d2, hd2, hm2⟩
        rcases List.mem_cons.mp he2 with h1 | h1
        · subst h1
          rw [hd] at hd2
          cases hd2
          rw [hm] at hm2
          exact absurd hm2 (by simp)
        · exact ih (nxAddEdge g d e.2.revision_id) (by rw [hnodes]; exact hsz)
            (fun e3 h3 => by rw [hnodes]; exact hid e3 (List.mem_cons_of_mem _ h3))
            ⟨e2, h1, d2, hd2, by rw [hnodes]; exact hm2⟩
      | false =>
        have hnodes : (nxAddEdge g d e.2.revision_id).nodes = g.nodes ++ [(d, none)] :=
          nxAddEdge_nodes_grow hm (hid e (List.mem_cons_self _ _))
        apply buildEdgesPhase_stuck
        rw [hnodes]
        simp [hsz]

theorem foldl_nxAddNode : ∀ (files : List Revision) (acc : List (String × Option Revision)),
    (∀ r ∈ files, ∀ p ∈ acc, p.1 ≠ r.revision_id) →
    (files.map (fun r => r.revision_id)).Nodup →
    files.foldl (fun ns r => nxAddNode ns r.revision_id r) acc =
      acc ++ files.map (fun r => (r.revision_id, some r)) := by
  intro files
  induction files with
  | nil => intro acc _ _; simp
  | cons r files ih =>
    intro acc hdisj hnd
    rw [List.map_cons, List.nodup_cons] at hnd
    have hany : (acc.any (fun p => p.1 == r.revision_id)) = false := by
      rw [List.any_eq_false]
      intro p hp
      simp only [beq_iff_eq]
      exact hdisj r (List.mem_cons_self _ _) p hp
    have hadd : nxAddNode acc r.revision_id r = acc ++ [(r.revision_id, some r)] := by
      unfold nxAddNode; rw [hany]
    rw [List.foldl_cons, hadd, ih (acc ++ [(r.revision_id, some r)]) ?_ hnd.2]
    · simp
    · intro r2 hr2 p hp
      rcases List.mem_append.mp hp with h1 | h1
      · exact hdisj r2 (List.mem_cons_of_mem _ hr2) p h1
      · rcases List.mem_singleton.mp h1 with rfl
        show r.revision_id ≠ r2.revision_id
        intro hcontra
        exact hnd.1 (by rw [hcontra]; exact List.mem_map_of_mem _ hr2)

theorem buildNodesPhase_eq (files : List Revision)
    (hnd : (files.map (fun r => r.revision_id)).Nodup) :
    buildNodesPhase files = files.map (fun r => (r.revision_id, some r)) := by
  simpa using foldl_nxAddNode files [] (by simp) hnd

theorem entries_eq (files : List Revision) :
    (files.map (fun r => (r.revision_id, some r))).filterMap
      (fun p => p.2.map (fun r2 => (p.1, r2))) =
      files.map (fun r => (r.revision_id, r)) := by
  induction files with
  | nil => rfl
  | cons r files ih => simp [List.filterMap_cons, ih]

theorem anyKey_map (files : List Revision) (x : String) :
    ((files.map (fun r => (r.revision_id, some r))).any (fun p => p.1 == x)) = true ↔
      x ∈ files.map (fun r => r.revision_id) := by
  rw [List.any_eq_true]
  constructor
  · rintro ⟨p, hp, hpe⟩
    rcases List.mem_map.mp hp with ⟨r, hr, rfl⟩
    rw [beq_iff_eq] at hpe
    rw [← hpe]
    exact List.mem_map_of_mem _ hr
  · intro hx
    rcases List.mem_map.mp hx with ⟨r, hr, rfl⟩
    exact ⟨(r.revision_id, some r), List.mem_map_of_mem _ hr, by simp⟩

/-- C10 (amended): with distinct revision ids, `build` succeeds exactly
when every `down_revision_id` names a revision on disk, and a successful
build creates no implicit data-less node — its node set is exactly the
parsed revisions.  When some `down_revision_id` is dangling, `add_edge`
grows the node dict while `build` iterates it and `build` raises
`RuntimeError` (dictionary changed size during iteration) instead of
succeeding. -/
theorem c10_theorem (files : List Revision)
    (hnd : (files.map (fun r => r.revision_id)).Nodup) :
    ((∃ g, build files = Except.ok g) ↔
       (∀ r ∈ files, ∀ d, r.down_revision_id = some d →
          d ∈ files.map (fun r2 => r2.revision_id))) ∧
    (∀ g, build files = Except.ok g →
       g.nodes = files.map (fun r => (r.revision_id, some r)) ∧
       ∀ p ∈ g.nodes, p.2 ≠ none) := by
  have hns := buildNodesPhase_eq files hnd
  have hbuild : build files =
      buildEdgesPhase (files.map (fun r => (r.revision_id, some r))).length
        (files.map (fun r => (r.revision_id, r)))
        { nodes := files.map (fun r => (r.revision_id, some r)), edges := [] } := by
    unfold build
    rw [hns, entries_eq]
  have hid : ∀ e ∈ files.map (fun r => (r.revision_id, r)),
      ((files.map (fun r => (r.revision_id, some r))).any
        (fun p => p.1 == e.2.revision_id)) = true := by
    intro e he
    rcases List.mem_map.mp he with ⟨r, hr, rfl⟩
    exact (anyKey_map files _).mpr (List.mem_map_of_mem _ hr)
  by_cases hdang : ∀ r ∈ files, ∀ d, r.down_revision_id = some d →
      d ∈ files.map (fun r2 => r2.revision_id)
  · have hok := buildEdgesPhase_ok
      (files.map (fun r => (r.revision_id, some r))).length
      (files.map (fun r => (r.revision_id, r)))
      { nodes := files.map (fun r => (r.revision_id, some r)), edges := [] }
      rfl
      (by
        intro e he d hd
        rcases List.mem_map.mp he with ⟨r, hr, rfl⟩
        exact (anyKey_map files d).mpr (hdang r hr d hd))
      hid
      (by
        simp only [List.nil_append]
        apply edgesOf_nodup
        have : (files.map (fun r => (r.revision_id, r))).map (fun e => e.2.revision_id) =
            files.map (fun r => r.revision_id) := by
          rw [List.map_map]; rfl
        rw [this]; exact hnd)
    rw [hbuild, hok]
    constructor
    · exact iff_of_true ⟨_, rfl⟩ hdang
    · intro g hg
      cases Except.ok.inj hg
      refine ⟨rfl, ?_⟩
      intro p hp
      rcases List.mem_map.mp hp with ⟨r, hr, rfl⟩
      simp
  · push_neg at hdang
    rcases hdang with ⟨r, hr, d, hd, hdm⟩
    have herr := buildEdgesPhase_dangling
      (files.map (fun r => (r.revision_id, some r))).length
      (files.map (fun r => (r.revision_id, r)))
      { nodes := files.map (fun r => (r.revision_id, some r)), edges := [] }
      rfl hid
      ⟨(r.revision_id, r), List.mem_map_of_mem _ hr, d, hd, by
        rw [← Bool.not_eq_true]
        intro hcontra
        exact hdm ((anyKey_map files d).mp hcontra)⟩
    rw [hbuild, herr]
    constructor
    · constructor
      · rintro ⟨g, hg⟩; exact absurd hg (by simp)
      · intro hall; exact absurd (hall r hr d hd) hdm
    · intro g hg; exact absurd hg (by simp)

/-- Witness for C10's amended theorem: a two-file chain with distinct ids
and no dangling reference builds successfully into exactly its two
parsed nodes. -/
theorem c10_witness :
    ((([Revision.mk "a" none "" none none none none 0,
        Revision.mk "b" (some "a") "" none none none none 1].map
          (fun r => r.revision_id)).Nodup) ∧
     (∃ g, build [Revision.mk "a" none "" none none none none 0,
        Revision.mk "b" (some "a") "" none none none none 1] = Except.ok g)) := by
  refine ⟨by decide, ?_⟩
  exact (c10_theorem _ (by decide)).1.mpr (by decide)

/-! ## Linear chains -/

/-- Revision ids in order. -/
def revIds (rs : List Revision) : List String := rs.map (fun r => r.revision_id)

/-- `chainLinks prev rs`: the `down_revision_id` pointers of `rs` form a
chain continuing `prev` (absent for a chain starting at the root). -/
def chainLinks : Option String → List Revision → Prop
  | _, [] => True
  | prev, r :: rest => r.down_revision_id = prev ∧ chainLinks (some r.revision_id) rest

/-- The edges `build` adds for a linear chain: one per consecutive pair. -/
def chainEdges : List Revision → List (String × String)
  | a :: b :: rest => (a.revision_id, b.revision_id) :: chainEdges (b :: rest)
  | _ => []

/-- The graph `build` produces for a linear chain. -/
def chainGraph (rs : List Revision) : NxGraph :=
  { nodes := rs.map (fun r => (r.revision_id, some r)), edges := chainEdges rs }

theorem chainLinks_front : ∀ (l1 l2 : List Revision) (prev : Option String),
    chainLinks prev (l1 ++ l2) → chainLinks prev l1 := by
  intro l1
  induction l1 with
  | nil => intro l2 prev _; trivial
  | cons r l1 ih =>
    intro l2 prev h
    exact ⟨h.1, ih l2 _ h.2⟩

theorem chainLinks_at : ∀ (l1 : List Revision) (b : Revision) (l2 : List Revision)
    (prev : Option String), chainLinks prev (l1 ++ b :: l2) →
    b.down_revision_id = (match l1.getLast? with
      | some a => some a.revision_id
      | none => prev) := by
  intro l1
  induction l1 with
  | nil => intro b l2 prev h; exact h.1
  | cons r l1 ih =>
    intro b l2 prev h
    have := ih b l2 (some r.revision_id) h.2
    rw [this]
    cases hl : l1.getLast? with
    | none =>
      have h0 : l1 = [] := List.getLast?_eq_none_iff.mp hl
      subst h0
      rfl
    | some a => simp [List.getLast?_cons, hl]

theorem edgesOf_chain_some : ∀ (rs : List Revision) (x : Revision),
    chainLinks (some x.revision_id) rs →
    edgesOf (rs.map (fun r => (r.revision_id, r))) = chainEdges (x :: rs) := by
  intro rs
  induction rs with
  | nil => intro x _; rfl
  | cons r rest ih =>
    intro x h
    rw [List.map_cons, @edgesOf_cons_some (r.revision_id, r) _ _ h.1]
    show (x.revision_id, r.revision_id) :: edgesOf (rest.map (fun r => (r.revision_id, r))) = _
    rw [ih r h.2]
    rfl

theorem edgesOf_chain_none (rs : List Revision) (h : chainLinks none rs) :
    edgesOf (rs.map (fun r => (r.revision_id, r))) = chainEdges rs := by
  cases rs with
  | nil => rfl
  | cons r rest =>
    rw [List.map_cons, @edgesOf_cons_none (r.revision_id, r) _ h.1]
    cases rest with
    | nil => rfl
    | cons b rest2 => exact edgesOf_chain_some _ r h.2

theorem chain_no_dangling : ∀ (rs : List Revision) (prev : Option String),
    chainLinks prev rs → ∀ r ∈ rs, ∀ d, r.down_revision_id = some d →
      some d = prev ∨ d ∈ revIds rs := by
  intro rs
  induction rs with
  | nil => intro prev _ r hr; exact absurd hr (by simp)
  | cons a rest ih =>
    intro prev h r hr d hd
    rcases List.mem_cons.mp hr with rfl | hr2
    · left; rw [← hd]; exact h.1
    · rcases ih (some a.revision_id) h.2 r hr2 d hd with h1 | h1
      · right; rw [revIds, List.map_cons]
        exact List.mem_cons.mpr (Or.inl (Option.some.inj h1))
      · right; exact List.mem_cons_of_mem _ h1

/-- `build` on a linear chain with distinct ids succeeds and produces
exactly the chain graph. -/
theorem build_chain (rs : List Revision) (hc : chainLinks none rs)
    (hnd : (revIds rs).Nodup) : build rs = Except.ok (chainGraph rs) := by
  have hns := buildNodesPhase_eq rs hnd
  have hbuild : build rs =
      buildEdgesPhase (rs.map (fun r => (r.revision_id, some r))).length
        (rs.map (fun r => (r.revision_id, r)))
        { nodes := rs.map (fun r => (r.revision_id, some r)), edges := [] } := by
    unfold build
    rw [hns, entries_eq]
  have hok := buildEdgesPhase_ok
    (rs.map (fun r => (r.revision_id, some r))).length
    (rs.map (fun r => (r.revision_id, r)))
    { nodes := rs.map (fun r => (r.revision_id, some r)), edges := [] }
    rfl
    (by
      intro e he d hd
      rcases List.mem_map.mp he with ⟨r, hr, rfl⟩
      rcases chain_no_dangling rs none hc r hr d hd with h1 | h1
      · exact absurd h1 (by simp)
      · exact (anyKey_map rs d).mpr h1)
    (by
      intro e he
      rcases List.mem_map.mp he with ⟨r, hr, rfl⟩
      exact (anyKey_map rs _).mpr (List.mem_map_of_mem _ hr))
    (by
      simp only [List.nil_append]
      apply edgesOf_nodup
      have : (rs.map (fun r => (r.revision_id, r))).map (fun e => e.2.revision_id) =
          rs.map (fun r => r.revision_id) := by
        rw [List.map_map]; rfl
      rw [this]; exact hnd)
  rw [hbuild, hok, edgesOf_chain_none rs hc]
  rfl

theorem buildD_chain (rs : List Revision) (hc : chainLinks none rs)
    (hnd : (revIds rs).Nodup) : buildD rs = chainGraph rs := by
  unfold buildD
  rw [build_chain rs hc hnd]

/-! ## Graph queries on a chain -/

/-- Successors drawn from an explicit edge list (the body of
`succList`). -/
def edgeSucc (l : List (String × String)) (u : String) : List String :=
  l.filterMap (fun e => match e.1 == u with
    | true => some e.2
    | false => none)

theorem succList_eq_edgeSucc (g : NxGraph) (u : String) :
    succList g u = edgeSucc g.edges u := rfl

theorem edgeSucc_nil_of_not_src (l : List (String × String)) (u : String)
    (h : u ∉ l.map Prod.fst) : edgeSucc l u = [] := by
  unfold edgeSucc
  rw [List.filterMap_eq_nil_iff]
  intro e he
  rw [show (e.1 == u) = false from
    beq_eq_false_iff_ne.mpr (fun hc => h (hc ▸ List.mem_map_of_mem _ he))]

theorem edgeSucc_singleton : ∀ (l : List (String × String)) (u v : String),
    (l.map Prod.fst).Nodup → (u, v) ∈ l → edgeSucc l u = [v] := by
  intro l
  induction l with
  | nil => intro u v _ hmem; exact absurd hmem (by simp)
  | cons e l ih =>
    intro u v hnd hmem
    rw [List.map_cons, List.nodup_cons] at hnd
    rcases List.mem_cons.mp hmem with rfl | hmem2
    · show edgeSucc ((u, v) :: l) u = [v]
      unfold edgeSucc
      rw [List.filterMap_cons]
      have : ((u, v).1 == u) = true := by simp
      rw [this]
      have hrest : edgeSucc l u = [] :=
        edgeSucc_nil_of_not_src l u (by simpa using hnd.1)
      unfold edgeSucc at hrest
      rw [hrest]
    · have hne : e.1 ≠ u := by
        intro hc
        exact hnd.1 (hc ▸ List.mem_map_of_mem _ hmem2)
      unfold edgeSucc
      rw [List.filterMap_cons, show (e.1 == u) = false from beq_eq_false_iff_ne.mpr hne]
      exact ih u v hnd.2 hmem2

theorem chainEdges_srcs : ∀ (rs : List Revision),
    (chainEdges rs).map Prod.fst = revIds rs.dropLast := by
  intro rs
  match rs with
  | [] => rfl
  | [a] => rfl
  | a :: b :: rest =>
    show (a.revision_id, b.revision_id).1 :: (chainEdges (b :: rest)).map Prod.fst = _
    rw [chainEdges_srcs (b :: rest)]
    rfl

theorem chainEdges_snds : ∀ (rs : List Revision),
    (chainEdges rs).map Prod.snd = revIds rs.tail := by
  intro rs
  match rs with
  | [] => rfl
  | [a] => rfl
  | a :: b :: rest =>
    show (a.revision_id, b.revision_id).2 :: (chainEdges (b :: rest)).map Prod.snd = _
    rw [chainEdges_snds (b :: rest)]
    rfl

theorem chainEdges_mem : ∀ (pre : List Revision) (x r : Revision) (suf : List Revision),
    (x.revision_id, r.revision_id) ∈ chainEdges (pre ++ x :: r :: suf) := by
  intro pre
  induction pre with
  | nil => intro x r suf; exact List.mem_cons_self _ _
  | cons p pre ih =>
    intro x r suf
    have hne : pre ++ x :: r :: suf ≠ [] := by
      cases pre <;> simp
    rcases List.exists_cons_of_ne_nil hne with ⟨b, l, hb⟩
    show (x.revision_id, r.revision_id) ∈ chainEdges (p :: (pre ++ x :: r :: suf))
    rw [hb]
    show (x.revision_id, r.revision_id) ∈
      (p.revision_id, b.revision_id) :: chainEdges (b :: l)
    rw [← hb]
    exact List.mem_cons_of_mem _ (ih x r suf)

/-- In a chain with distinct ids, the successor list of an interior node
is exactly the next node. -/
theorem succList_chain_next (rs pre : List Revision) (x r : Revision)
    (suf : List Revision) (hrs : rs = pre ++ x :: r :: suf)
    (hnd : (revIds rs).Nodup) :
    succList (chainGraph rs) x.revision_id = [r.revision_id] := by
  rw [succList_eq_edgeSucc]
  apply edgeSucc_singleton
  · show ((chainGraph rs).edges.map Prod.fst).Nodup
    show ((chainEdges rs).map Prod.fst).Nodup
    rw [chainEdges_srcs]
    exact hnd.sublist ((List.dropLast_sublist rs).map _)
  · show (x.revision_id, r.revision_id) ∈ chainEdges rs
    rw [hrs]
    exact chainEdges_mem pre x r suf

/-- The last node of a chain has no successor. -/
theorem succList_chain_last (rs pre : List Revision) (x : Revision)
    (hrs : rs = pre ++ [x]) (hnd : (revIds rs).Nodup) :
    succList (chainGraph rs) x.revision_id = [] := by
  rw [succList_eq_edgeSucc]
  apply edgeSucc_nil_of_not_src
  show x.revision_id ∉ (chainEdges rs).map Prod.fst
  rw [chainEdges_srcs, hrs, List.dropLast_concat]
  subst hrs
  rw [revIds, List.map_append] at hnd
  have := List.disjoint_of_nodup_append hnd
  intro hmem
  exact this hmem (by simp [revIds])

theorem nodeData_chain (rs : List Revision) (r : Revision) (hmem : r ∈ rs)
    (hnd : (revIds rs).Nodup) :
    nodeData (chainGraph rs) r.revision_id = some r := by
  show ((rs.map (fun r2 => (r2.revision_id, some r2))).find?
      (fun p => p.1 == r.revision_id)).bind (fun p => p.2) = some r
  induction rs with
  | nil => exact absurd hmem (by simp)
  | cons a rest ih =>
    rw [revIds, List.map_cons, List.nodup_cons] at hnd
    rcases List.mem_cons.mp hmem with rfl | hmem2
    · rw [List.map_cons, List.find?_cons_of_pos _ (by simp)]
      rfl
    · have hne : a.revision_id ≠ r.revision_id := by
        intro hc
        exact hnd.1 (hc ▸ List.mem_map_of_mem _ hmem2)
      rw [List.map_cons, List.find?_cons_of_neg _ (by simpa using hne)]
      exact ih hmem2 hnd.2

theorem get_node_chain (rs : List Revision) (r : Revision) (hmem : r ∈ rs)
    (hnd : (revIds rs).Nodup) :
    get_node (chainGraph rs) r.revision_id = some r :=
  nodeData_chain rs r hmem hnd

/-- Specification of the successor walk from a node: each step has
exactly the next revision as successor, with its data present. -/
def walkOk (g : NxGraph) : Revision → List Revision → Prop
  | x, [] => succList g x.revision_id = []
  | x, r :: rest => succList g x.revision_id = [r.revision_id] ∧
      nodeData g r.revision_id = some r ∧ walkOk g r rest

theorem iterSucc_of_walkOk (g : NxGraph) : ∀ (suf : List Revision) (x : Revision)
    (fuel : Nat), walkOk g x suf → suf.length ≤ fuel →
    iterSucc g fuel x.revision_id = suf := by
  intro suf
  induction suf with
  | nil =>
    intro x fuel hw _
    cases fuel with
    | zero => rfl
    | succ f =>
      show iterSucc g (f + 1) x.revision_id = []
      unfold iterSucc
      rw [show succList g x.revision_id = [] from hw]
      rfl
  | cons r rest ih =>
    intro x fuel hw hf
    cases fuel with
    | zero => exact absurd hf (by simp)
    | succ f =>
      unfold iterSucc
      rw [hw.1]
      simp only [List.head?_cons]
      rw [hw.2.1]
      show r :: iterSucc g f r.revision_id = r :: rest
      rw [ih r f hw.2.2 (Nat.succ_le_succ_iff.mp (by simpa using hf))]

theorem walkOk_chain (rs : List Revision) (hnd : (revIds rs).Nodup) :
    ∀ (suf pre : List Revision) (x : Revision), rs = pre ++ x :: suf →
    walkOk (chainGraph rs) x suf := by
  intro suf
  induction suf with
  | nil =>
    intro pre x hrs
    exact succList_chain_last rs pre x (by simpa using hrs) hnd
  | cons r rest ih =>
    intro pre x hrs
    refine ⟨succList_chain_next rs pre x r rest hrs hnd, ?_, ?_⟩
    · exact nodeData_chain rs r (by rw [hrs]; simp) hnd
    · exact ih (pre ++ [x]) r (by rw [hrs]; simp)

/-- `iter_from` on a chain yields exactly the suffix after the start
node. -/
theorem iter_from_chain (rs pre : List Revision) (x : Revision)
    (suf : List Revision) (hrs : rs = pre ++ x :: suf)
    (hnd : (revIds rs).Nodup) :
    iter_from (chainGraph rs) x.revision_id = Except.ok suf := by
  unfold iter_from
  have hmem : ((chainGraph rs).nodes.any (fun p => p.1 == x.revision_id)) = true := by
    show ((rs.map (fun r => (r.revision_id, some r))).any
      (fun p => p.1 == x.revision_id)) = true
    exact (anyKey_map rs _).mpr (by rw [hrs]; simp [revIds])
  rw [hmem]
  have hfuel : suf.length ≤ (chainGraph rs).nodes.length := by
    show suf.length ≤ (rs.map (fun r => (r.revision_id, some r))).length
    rw [List.length_map, hrs]
    simp
    omega
  rw [iterSucc_of_walkOk (chainGraph rs) suf x _
    (walkOk_chain rs hnd suf pre x hrs) hfuel]

/-- `first` on a nonempty chain is the root. -/
theorem graph_first_chain (rs : List Revision) (r0 : Revision)
    (rest : List Revision) (hrs : rs = r0 :: rest)
    (hnd : (revIds rs).Nodup) :
    graph_first (chainGraph rs) = some r0.revision_id := by
  unfold graph_first
  have hin : inEdges (chainGraph rs) r0.revision_id = [] := by
    unfold inEdges
    rw [List.filter_eq_nil_iff]
    intro e he
    have hsnd : e.2 ∈ revIds rs.tail := by
      rw [← chainEdges_snds]
      exact List.mem_map_of_mem _ he
    rw [hrs] at hsnd
    have hsnd2 : e.2 ∈ List.map (fun r => r.revision_id) rest := by
      simpa [revIds] using hsnd
    have hne : e.2 ≠ r0.revision_id := by
      intro hc
      rw [hrs] at hnd
      rw [revIds, List.map_cons, List.nodup_cons] at hnd
      exact hnd.1 (by rw [← hc]; exact hsnd2)
    simpa using hne
  have : (chainGraph rs).nodes = (r0.revision_id, some r0) ::
      rest.map (fun r => (r.revision_id, some r)) := by
    show rs.map (fun r => (r.revision_id, some r)) = _
    rw [hrs]
    rfl
  rw [this, List.find?_cons_of_pos _ (by simp [hin])]
  rfl

/-- `iter()` on a chain yields the whole chain in order. -/
theorem iterList_chain (rs : List Revision) (hc : chainLinks none rs)
    (hnd : (revIds rs).Nodup) : iterList (chainGraph rs) = rs := by
  cases hrs : rs with
  | nil => rfl
  | cons r0 rest =>
    subst hrs
    unfold iterList
    rw [graph_first_chain (r0 :: rest) r0 rest rfl hnd]
    show (match nodeData (chainGraph (r0 :: rest)) r0.revision_id with
      | some r => r :: iterSucc (chainGraph (r0 :: rest))
          (chainGraph (r0 :: rest)).nodes.length r0.revision_id
      | none => []) = r0 :: rest
    rw [nodeData_chain (r0 :: rest) r0 (by simp) hnd]
    show r0 :: iterSucc _ _ _ = r0 :: rest
    rw [iterSucc_of_walkOk (chainGraph (r0 :: rest)) rest r0 _
      (walkOk_chain (r0 :: rest) hnd rest [] r0 rfl)
      (by show rest.length ≤ ((r0 :: rest).map _).length; simp)]

/-! ## Bookkeeping-table states along a chain -/

/-- Rows produced by applying a list of revisions in order starting at
clock `c`. -/
def rowsOf : List Revision → Nat → List SRow
  | [], _ => []
  | r :: rest, c => sqliteRowOf r c :: rowsOf rest (c + 1)

theorem rowsOf_append : ∀ (l1 l2 : List Revision) (c : Nat),
    rowsOf (l1 ++ l2) c = rowsOf l1 c ++ rowsOf l2 (c + l1.length) := by
  intro l1
  induction l1 with
  | nil => intro l2 c; simp [rowsOf]
  | cons r l1 ih =>
    intro l2 c
    show sqliteRowOf r c :: rowsOf (l1 ++ l2) (c + 1) = _
    rw [ih l2 (c + 1)]
    have hc : c + 1 + l1.length = c + (l1.length + 1) := by omega
    simp [rowsOf, hc]

theorem rowsOf_ids : ∀ (l : List Revision) (c : Nat),
    (rowsOf l c).map (fun row => row.revision_id) = revIds l := by
  intro l
  induction l with
  | nil => intro c; rfl
  | cons r l ih =>
    intro c
    show r.revision_id :: (rowsOf l (c + 1)).map (fun row => row.revision_id) = _
    rw [ih (c + 1)]
    rfl

theorem rowsOf_created_bound : ∀ (l : List Revision) (c : Nat),
    ∀ row ∈ rowsOf l c, c ≤ row.created_at ∧ row.created_at < c + l.length := by
  intro l
  induction l with
  | nil => intro c row h; exact absurd h (by simp [rowsOf])
  | cons r l ih =>
    intro c row h
    rcases List.mem_cons.mp h with rfl | h2
    · show c ≤ c ∧ c < c + (l.length + 1)
      omega
    · have := ih (c + 1) row h2
      constructor <;> [omega; (simp only [List.length_cons]; omega)]

theorem rowsOf_pairwise : ∀ (l : List Revision) (c : Nat),
    (rowsOf l c).Pairwise (fun a b => a.created_at < b.created_at) := by
  intro l
  induction l with
  | nil => intro c; exact List.Pairwise.nil
  | cons r l ih =>
    intro c
    refine List.Pairwise.cons ?_ (ih (c + 1))
    intro row hrow
    have := (rowsOf_created_bound l (c + 1) row hrow).1
    show c < row.created_at
    omega

theorem insertByDesc_all_gt (x : SRow) : ∀ (l : List SRow),
    (∀ y ∈ l, x.created_at < y.created_at) → insertByDesc x l = l ++ [x] := by
  intro l
  induction l with
  | nil => intro _; rfl
  | cons y l ih =>
    intro h
    unfold insertByDesc
    rw [if_neg (by
      have := h y (List.mem_cons_self _ _)
      omega)]
    rw [ih (fun z hz => h z (List.mem_cons_of_mem _ hz))]
    rfl

theorem sortDesc_of_ascending : ∀ (l : List SRow),
    l.Pairwise (fun a b => a.created_at < b.created_at) →
    sortDesc l = l.reverse := by
  intro l
  induction l with
  | nil => intro _; rfl
  | cons x l ih =>
    intro h
    show insertByDesc x (sortDesc l) = (x :: l).reverse
    rcases List.pairwise_cons.mp h with ⟨hx, hl⟩
    rw [ih hl, insertByDesc_all_gt x l.reverse
      (fun y hy => hx y (List.mem_reverse.mp hy))]
    simp

/-- The head revision of an ascending row list is the last row. -/
theorem get_head_rowsOf (l : List Revision) (c k : Nat) (log : List String) :
    sqlite_get_head_revision (SDB.mk true (rowsOf l c) log k) =
      Except.ok ((rowsOf l c).getLast?.map sqliteRowToRevision) := by
  show Except.ok ((sortDesc (rowsOf l c)).head?.map sqliteRowToRevision) = _
  rw [sortDesc_of_ascending _ (rowsOf_pairwise l c), List.head?_reverse]

theorem getLast?_rowsOf_ids (l : List Revision) (c : Nat) :
    ((rowsOf l c).getLast?.map sqliteRowToRevision).map (fun rev => rev.revision_id) =
      (revIds l).getLast? := by
  rw [Option.map_map]
  have h1 : ((fun rev => rev.revision_id) ∘ sqliteRowToRevision) =
      (fun row : SRow => row.revision_id) := rfl
  rw [h1, ← List.getLast?_map, rowsOf_ids]

/-- Removing the last applied revision's row. -/
theorem filter_rowsOf_last (l : List Revision) (x : Revision) (c : Nat)
    (hnd : (revIds (l ++ [x])).Nodup) :
    (rowsOf (l ++ [x]) c).filter
      (fun row => !(row.revision_id == x.revision_id)) = rowsOf l c := by
  rw [rowsOf_append]
  rw [List.filter_append]
  have h1 : (rowsOf l c).filter (fun row => !(row.revision_id == x.revision_id)) =
      rowsOf l c := by
    rw [List.filter_eq_self]
    intro row hrow
    have hid : row.revision_id ∈ revIds l := by
      rw [← rowsOf_ids l c]
      exact List.mem_map_of_mem _ hrow
    rw [revIds, List.map_append] at hnd
    have hdisj := List.disjoint_of_nodup_append hnd
    have : row.revision_id ≠ x.revision_id := by
      intro hc
      exact hdisj (by rw [← revIds]; exact hid) (by rw [hc]; simp [revIds])
    simpa using this
  have h2 : (rowsOf [x] (c + l.length)).filter
      (fun row => !(row.revision_id == x.revision_id)) = [] := by
    show List.filter _ [sqliteRowOf x (c + l.length)] = []
    simp [sqliteRowOf]
  rw [h1, h2]
  simp

/-- The head revision id of a database state (absent when the table is
empty). -/
def headIdOf (db : SDB) : Option String :=
  match sqlite_get_head_revision db with
  | Except.ok (some rev) => some rev.revision_id
  | _ => none

theorem headIdOf_rowsOf (l : List Revision) (c k : Nat) (log : List String) :
    headIdOf (SDB.mk true (rowsOf l c) log k) = (revIds l).getLast? := by
  unfold headIdOf
  rw [get_head_rowsOf]
  rw [← getLast?_rowsOf_ids l c]
  cases (rowsOf l c).getLast? with
  | none => rfl
  | some row => rfl

/-! ## The upgrade loop on a chain -/

theorem sqlite_migrate_up_success (fail : String → Bool) (db : SDB) (r : Revision)
    (ht : db.tableExists = true)
    (hf : ∀ q, r.up_sql = some q → fail q = false)
    (hfresh : ∀ row ∈ db.rows, row.revision_id ≠ r.revision_id) :
    ∃ log2, sqlite_migrate_up fail db r =
      Except.ok (SDB.mk true (db.rows ++ [sqliteRowOf r db.clock]) log2 (db.clock + 1), 1) := by
  have hany : (db.rows.any (fun row => row.revision_id == r.revision_id)) = false := by
    rw [List.any_eq_false]
    intro row hrow
    simpa using hfresh row hrow
  have hins : ∀ log, sqliteInsertRow db r log =
      Except.ok (SDB.mk true (db.rows ++ [sqliteRowOf r db.clock]) log (db.clock + 1), 1) := by
    intro log
    unfold sqliteInsertRow
    rw [ht, hany]
  unfold sqlite_migrate_up
  cases hup : r.up_sql with
  | none => exact ⟨db.userLog, hins db.userLog⟩
  | some q =>
    refine ⟨db.userLog ++ [q], ?_⟩
    show (match fail q with
      | true => Except.error (DBErr.sqlError q)
      | false => sqliteInsertRow db r (db.userLog ++ [q])) = _
    rw [hf q hup]
    exact hins _

/-- The Python break test `steps and count == steps` after the increment. -/
def upBreak (steps : Option Int) (count2 : Nat) : Bool :=
  match steps with
  | some k => (k != 0) && ((count2 : Int) == k)
  | none => false

theorem runUp_cons_eq (fail : String → Bool) (steps : Option Int) (r : Revision)
    (rest : List Revision) (db : SDB) (count : Nat) (applied : List String) :
    runUp fail steps (r :: rest) db count applied =
      (match sqlite_migrate_up fail db r with
       | Except.error e => ⟨db, applied, some e⟩
       | Except.ok (db2, _) =>
         match upBreak steps (count + 1) with
         | true => ⟨db2, applied ++ [r.revision_id], none⟩
         | false => runUp fail steps rest db2 (count + 1) (applied ++ [r.revision_id])) :=
  rfl

theorem runUp_cons_break {fail : String → Bool} {steps : Option Int} {r : Revision}
    {rest : List Revision} {db db2 : SDB} {count : Nat} {applied : List String}
    {n : Int} (h : sqlite_migrate_up fail db r = Except.ok (db2, n))
    (hb : upBreak steps (count + 1) = true) :
    runUp fail steps (r :: rest) db count applied =
      ⟨db2, applied ++ [r.revision_id], none⟩ := by
  rw [runUp_cons_eq]
  simp only [h, hb]

theorem runUp_cons_cont {fail : String → Bool} {steps : Option Int} {r : Revision}
    {rest : List Revision} {db db2 : SDB} {count : Nat} {applied : List String}
    {n : Int} (h : sqlite_migrate_up fail db r = Except.ok (db2, n))
    (hb : upBreak steps (count + 1) = false) :
    runUp fail steps (r :: rest) db count applied =
      runUp fail steps rest db2 (count + 1) (applied ++ [r.revision_id]) := by
  rw [runUp_cons_eq]
  simp only [h, hb]

theorem runUp_pos (fail : String → Bool) (k : Nat) :
    ∀ (revs : List Revision) (db : SDB) (count : Nat) (applied : List String),
    db.tableExists = true →
    (∀ r ∈ revs, ∀ q, r.up_sql = some q → fail q = false) →
    (∀ r ∈ revs, ∀ row ∈ db.rows, row.revision_id ≠ r.revision_id) →
    (revIds revs).Nodup →
    count < k →
    (runUp fail (some (k : Int)) revs db count applied).db.tableExists = true ∧
    (runUp fail (some (k : Int)) revs db count applied).db.rows =
      db.rows ++ rowsOf (revs.take (min (k - count) revs.length)) db.clock ∧
    (runUp fail (some (k : Int)) revs db count applied).db.clock =
      db.clock + min (k - count) revs.length ∧
    (runUp fail (some (k : Int)) revs db count applied).applied =
      applied ++ revIds (revs.take (min (k - count) revs.length)) ∧
    (runUp fail (some (k : Int)) revs db count applied).err = none := by
  intro revs
  induction revs with
  | nil =>
    intro db count applied ht _ _ _ _
    show db.tableExists = true ∧ db.rows = _ ∧ db.clock = _ ∧ applied = _ ∧
      (none : Option DBErr) = none
    simp [rowsOf, revIds, ht]
  | cons r rest ih =>
    intro db count applied ht hf hfresh hnd hcount
    rcases sqlite_migrate_up_success fail db r ht
      (fun q hq => hf r (List.mem_cons_self _ _) q hq)
      (hfresh r (List.mem_cons_self _ _)) with ⟨log2, hok⟩
    rw [revIds, List.map_cons, List.nodup_cons] at hnd
    by_cases hbreak : count + 1 = k
    · have hb : upBreak (some (k : Int)) (count + 1) = true := by
        show (((k : Int) != 0) && (((count + 1 : Nat) : Int) == (k : Int))) = true
        have h1 : ((k : Int) != 0) = true := by
          rw [bne_iff_ne]
          intro hc
          have hk0 : k = 0 := by exact_mod_cast hc
          omega
        have h2 : (((count + 1 : Nat) : Int) == (k : Int)) = true := by
          rw [hbreak]
          simp
        rw [h1, h2]
        rfl
      rw [runUp_cons_break hok hb]
      have he : min (k - count) (r :: rest).length = 1 := by
        simp only [List.length_cons]
        omega
      rw [he]
      refine ⟨rfl, ?_, rfl, ?_, rfl⟩
      · show db.rows ++ [sqliteRowOf r db.clock] = _
        rw [List.take_succ_cons, List.take_zero]
        rfl
      · show applied ++ [r.revision_id] = _
        rw [List.take_succ_cons, List.take_zero]
        rfl
    · have hb : upBreak (some (k : Int)) (count + 1) = false := by
        show (((k : Int) != 0) && (((count + 1 : Nat) : Int) == (k : Int))) = false
        have h2 : (((count + 1 : Nat) : Int) == (k : Int)) = false := by
          rw [beq_eq_false_iff_ne]
          intro hc
          exact hbreak (by exact_mod_cast hc)
        rw [h2, Bool.and_false]
      rw [runUp_cons_cont hok hb]
      have hcount2 : count + 1 < k := by omega
      have hres := ih (SDB.mk true (db.rows ++ [sqliteRowOf r db.clock]) log2 (db.clock + 1))
        (count + 1) (applied ++ [r.revision_id]) rfl
        (fun r2 h2 q hq => hf r2 (List.mem_cons_of_mem _ h2) q hq)
        (by
          intro r2 h2 row hrow
          rcases List.mem_append.mp hrow with h3 | h3
          · exact hfresh r2 (List.mem_cons_of_mem _ h2) row h3
          · rcases List.mem_singleton.mp h3 with rfl
            show r.revision_id ≠ r2.revision_id
            intro hc
            exact hnd.1 (hc ▸ List.mem_map_of_mem _ h2))
        hnd.2 hcount2
      have hmin : min (k - count) (r :: rest).length =
          min (k - (count + 1)) rest.length + 1 := by
        simp only [List.length_cons]
        omega
      rw [hmin]
      refine ⟨hres.1, ?_, ?_, ?_, hres.2.2.2.2⟩
      · rw [hres.2.1]
        show db.rows ++ [sqliteRowOf r db.clock] ++ _ = _
        rw [List.take_succ_cons, List.append_assoc]
        rfl
      · rw [hres.2.2.1]
        show db.clock + 1 + min (k - (count + 1)) rest.length = _
        omega
      · rw [hres.2.2.2.1, List.take_succ_cons, List.append_assoc]
        rfl

theorem runUp_nolimit (fail : String → Bool) (steps : Option Int)
    (hsteps : steps = none ∨ steps = some 0) :
    ∀ (revs : List Revision) (db : SDB) (count : Nat) (applied : List String),
    db.tableExists = true →
    (∀ r ∈ revs, ∀ q, r.up_sql = some q → fail q = false) →
    (∀ r ∈ revs, ∀ row ∈ db.rows, row.revision_id ≠ r.revision_id) →
    (revIds revs).Nodup →
    (runUp fail steps revs db count applied).db.tableExists = true ∧
    (runUp fail steps revs db count applied).db.rows =
      db.rows ++ rowsOf revs db.clock ∧
    (runUp fail steps revs db count applied).db.clock = db.clock + revs.length ∧
    (runUp fail steps revs db count applied).applied = applied ++ revIds revs ∧
    (runUp fail steps revs db count applied).err = none := by
  intro revs
  induction revs with
  | nil =>
    intro db count applied ht _ _ _
    show db.tableExists = true ∧ db.rows = _ ∧ db.clock = _ ∧ applied = _ ∧
      (none : Option DBErr) = none
    simp [rowsOf, revIds, ht]
  | cons r rest ih =>
    intro db count applied ht hf hfresh hnd
    rcases sqlite_migrate_up_success fail db r ht
      (fun q hq => hf r (List.mem_cons_self _ _) q hq)
      (hfresh r (List.mem_cons_self _ _)) with ⟨log2, hok⟩
    rw [revIds, List.map_cons, List.nodup_cons] at hnd
    have hb : upBreak steps (count + 1) = false := by
      rcases hsteps with h0 | h0
      · rw [h0]; rfl
      · rw [h0]
        show (((0 : Int) != 0) && (((count + 1 : Nat) : Int) == (0 : Int))) = false
        rw [show ((0 : Int) != 0) = false from by decide, Bool.false_and]
    rw [runUp_cons_cont hok hb]
    have hres := ih (SDB.mk true (db.rows ++ [sqliteRowOf r db.clock]) log2 (db.clock + 1))
      (count + 1) (applied ++ [r.revision_id]) rfl
      (fun r2 h2 q hq => hf r2 (List.mem_cons_of_mem _ h2) q hq)
      (by
        intro r2 h2 row hrow
        rcases List.mem_append.mp hrow with h3 | h3
        · exact hfresh r2 (List.mem_cons_of_mem _ h2) row h3
        · rcases List.mem_singleton.mp h3 with rfl
          show r.revision_id ≠ r2.revision_id
          intro hc
          exact hnd.1 (hc ▸ List.mem_map_of_mem _ h2))
      hnd.2
    refine ⟨hres.1, ?_, ?_, ?_, hres.2.2.2.2⟩
    · rw [hres.2.1]
      show db.rows ++ [sqliteRowOf r db.clock] ++ _ = _
      rw [List.append_assoc]
      rfl
    · rw [hres.2.2.1]
      show db.clock + 1 + rest.length = db.clock + (rest.length + 1)
      omega
    · rw [hres.2.2.2.1, List.append_assoc]
      rfl

/-! ## `upgrade` on a chain -/

theorem headIdOf_of_rows (db : SDB) (l : List Revision) (c : Nat)
    (ht : db.tableExists = true) (hrows : db.rows = rowsOf l c) :
    headIdOf db = (revIds l).getLast? := by
  rcases db with ⟨te, rows, log, clk⟩
  simp only at ht hrows
  subst ht
  subst hrows
  exact headIdOf_rowsOf l c clk log

theorem rowsOf_nil (c : Nat) : rowsOf [] c = [] := rfl

theorem upgrade_eq (fail : String → Bool) (g : NxGraph) (db : SDB)
    (steps : Option Int) :
    upgrade fail g db steps =
      (match sqlite_get_head_revision (sqlite_create_table db) with
       | Except.error e => ⟨sqlite_create_table db, [], some e⟩
       | Except.ok none =>
         runUp fail steps (iterList g) (sqlite_create_table db) 0 []
       | Except.ok (some head) =>
         match iter_from g head.revision_id with
         | Except.error e => ⟨sqlite_create_table db, [], some e⟩
         | Except.ok revs => runUp fail steps revs (sqlite_create_table db) 0 []) :=
  rfl

/-- Common reduction: on a chain state holding the rows of `done`, with
`rs = done ++ rest`, `upgrade` reduces to the loop over `rest`. -/
theorem upgrade_chain_run (fail : String → Bool) (done rest : List Revision)
    (hc : chainLinks none (done ++ rest))
    (hnd : (revIds (done ++ rest)).Nodup)
    (c0 : Nat) (log0 : List String) (steps : Option Int) :
    upgrade fail (buildD (done ++ rest))
        (SDB.mk true (rowsOf done c0) log0 (c0 + done.length)) steps =
      runUp fail steps rest
        (SDB.mk true (rowsOf done c0) log0 (c0 + done.length)) 0 [] := by
  have hg : buildD (done ++ rest) = chainGraph (done ++ rest) :=
    buildD_chain _ hc hnd
  rw [upgrade_eq]
  rw [show sqlite_create_table (SDB.mk true (rowsOf done c0) log0 (c0 + done.length)) =
    SDB.mk true (rowsOf done c0) log0 (c0 + done.length) from rfl]
  rw [get_head_rowsOf]
  rcases List.eq_nil_or_concat done with hdone | ⟨d1, x, hdone⟩
  · subst hdone
    rw [show ((rowsOf ([] : List Revision) c0).getLast?.map sqliteRowToRevision) =
      none from rfl]
    show runUp fail steps (iterList (buildD ([] ++ rest))) _ 0 [] = _
    rw [hg, iterList_chain _ hc hnd, List.nil_append]
  · rw [List.concat_eq_append] at hdone
    subst hdone
    have hlast : (rowsOf (d1 ++ [x]) c0).getLast? =
        some (sqliteRowOf x (c0 + d1.length)) := by
      rw [rowsOf_append]
      show (rowsOf d1 c0 ++ [sqliteRowOf x (c0 + d1.length)]).getLast? = _
      rw [List.getLast?_concat]
    rw [hlast]
    show (match iter_from (buildD (d1 ++ [x] ++ rest))
        (sqliteRowToRevision (sqliteRowOf x (c0 + d1.length))).revision_id with
      | Except.error e => _
      | Except.ok revs => runUp fail steps revs _ 0 []) = _
    rw [show (sqliteRowToRevision (sqliteRowOf x (c0 + d1.length))).revision_id =
      x.revision_id from rfl]
    rw [hg, iter_from_chain (d1 ++ [x] ++ rest) d1 x rest (by simp) hnd]

theorem nodup_append_parts {done rest : List Revision}
    (hnd : (revIds (done ++ rest)).Nodup) :
    (revIds done).Nodup ∧ (revIds rest).Nodup ∧
    ∀ a ∈ revIds done, a ∉ revIds rest := by
  have h : revIds (done ++ rest) = revIds done ++ revIds rest := by
    unfold revIds
    rw [List.map_append]
  rw [h] at hnd
  rcases List.nodup_append.mp hnd with ⟨h1, h2, h3⟩
  exact ⟨h1, h2, h3⟩

/-- C5 (amended): on a linear chain with `done` already applied and
`rest` pending, `upgrade(steps=k)` with `k ≥ 1` applies exactly
`min(k, |rest|)` pending revisions in chain order, so afterwards the
applied rows are `done ++ rest.take (min k |rest|)` and the head is the
last of those.  (The claim's `steps = 0` case fails: Python's
`if steps and count == steps` treats 0 as "no limit".) -/
theorem c5_theorem (fail : String → Bool) (done rest : List Revision)
    (hc : chainLinks none (done ++ rest)) (hnd : (revIds (done ++ rest)).Nodup)
    (hfail : ∀ q, fail q = false) (k : Nat) (hk : 1 ≤ k)
    (c0 : Nat) (log0 : List String) :
    (upgrade fail (buildD (done ++ rest))
        (SDB.mk true (rowsOf done c0) log0 (c0 + done.length)) (some (k : Int))).err
      = none ∧
    (upgrade fail (buildD (done ++ rest))
        (SDB.mk true (rowsOf done c0) log0 (c0 + done.length)) (some (k : Int))).applied
      = revIds (rest.take (min k rest.length)) ∧
    (upgrade fail (buildD (done ++ rest))
        (SDB.mk true (rowsOf done c0) log0 (c0 + done.length)) (some (k : Int))).db.rows
      = rowsOf (done ++ rest.take (min k rest.length)) c0 ∧
    headIdOf (upgrade fail (buildD (done ++ rest))
        (SDB.mk true (rowsOf done c0) log0 (c0 + done.length)) (some (k : Int))).db
      = (revIds (done ++ rest.take (min k rest.length))).getLast? := by
  rw [upgrade_chain_run fail done rest hc hnd c0 log0 (some (k : Int))]
  rcases nodup_append_parts hnd with ⟨-, hndr, hdisj⟩
  have hrun := runUp_pos fail k rest
    (SDB.mk true (rowsOf done c0) log0 (c0 + done.length)) 0 [] rfl
    (fun r _ q _ => hfail q)
    (by
      intro r hr row hrow
      show row.revision_id ≠ r.revision_id
      intro hce
      have h1 : row.revision_id ∈ revIds done := by
        rw [← rowsOf_ids done c0]
        exact List.mem_map_of_mem _ hrow
      exact hdisj _ h1 (hce ▸ List.mem_map_of_mem _ hr))
    hndr (by omega)
  have hk0 : k - 0 = k := rfl
  rw [hk0] at hrun
  have hclock : (SDB.mk true (rowsOf done c0) log0 (c0 + done.length)).clock =
      c0 + done.length := rfl
  have hrows0 : (SDB.mk true (rowsOf done c0) log0 (c0 + done.length)).rows =
      rowsOf done c0 := rfl
  rw [hclock, hrows0] at hrun
  refine ⟨hrun.2.2.2.2, ?_, ?_, ?_⟩
  · rw [hrun.2.2.2.1, List.nil_append]
  · rw [hrun.2.1, ← rowsOf_append]
  · refine headIdOf_of_rows _ _ c0 hrun.1 ?_
    rw [hrun.2.1, ← rowsOf_append]

/-- Witness for C5's amended theorem: three unapplied revisions,
`upgrade(steps=2)` applies `r1, r2` leaving head `r2`. -/
theorem c5_witness :
    (upgrade (fun _ => false)
        (buildD [Revision.mk "r1" none "" none none none none 0,
                 Revision.mk "r2" (some "r1") "" none none none none 0,
                 Revision.mk "r3" (some "r2") "" none none none none 0])
        (SDB.mk true (rowsOf [] 0) [] (0 + ([] : List Revision).length))
        (some ((2 : Nat) : Int))).applied = ["r1", "r2"] ∧
    headIdOf (upgrade (fun _ => false)
        (buildD [Revision.mk "r1" none "" none none none none 0,
                 Revision.mk "r2" (some "r1") "" none none none none 0,
                 Revision.mk "r3" (some "r2") "" none none none none 0])
        (SDB.mk true (rowsOf [] 0) [] (0 + ([] : List Revision).length))
        (some ((2 : Nat) : Int))).db = some "r2" := by
  have h := c5_theorem (fun _ => false) []
    [Revision.mk "r1" none "" none none none none 0,
     Revision.mk "r2" (some "r1") "" none none none none 0,
     Revision.mk "r3" (some "r2") "" none none none none 0]
    ⟨rfl, rfl, rfl, trivial⟩ (by decide) (fun _ => rfl) 2 (by decide) 0 []
  simp only [List.nil_append] at h
  refine ⟨?_, ?_⟩
  · rw [h.2.1]; rfl
  · rw [h.2.2.2]; rfl

/-- Counterexample for C5 as stated: `upgrade(steps=0)` on a single
unapplied revision applies it (head becomes `r1`), because `steps=0` is
falsy in `if steps and count == steps`; the claim's `r_min(0,1)` would
mean no revision applied and head absent. -/
theorem c5_counterexample :
    (upgrade (fun _ => false)
        (buildD [Revision.mk "r1" none "" none none none none 0])
        (SDB.mk true [] [] 0) (some 0)).applied = ["r1"] ∧
    headIdOf (upgrade (fun _ => false)
        (buildD [Revision.mk "r1" none "" none none none none 0])
        (SDB.mk true [] [] 0) (some 0)).db = some "r1" := by
  exact ⟨rfl, rfl⟩

/-! ## The downgrade loop on a chain -/

/-- The Python loop guard `steps is None or count < steps`. -/
def downCond (steps : Option Int) (count : Nat) : Bool :=
  match steps with
  | none => true
  | some k => decide ((count : Int) < k)

theorem runDown_succ_eq (fail : String → Bool) (g : NxGraph) (steps : Option Int)
    (fuel : Nat) (db : SDB) (cur : Revision) (count : Nat) (applied : List String) :
    runDown fail g steps (fuel + 1) db cur count applied =
      (match downCond steps count with
       | false => ⟨db, applied, none⟩
       | true =>
         match sqlite_migrate_down fail db cur with
         | Except.error e => ⟨db, applied, some e⟩
         | Except.ok (db2, _) =>
           match cur.down_revision_id with
           | none => ⟨db2, applied ++ [cur.revision_id], none⟩
           | some d =>
             match get_node g d with
             | none => ⟨db2, applied ++ [cur.revision_id], none⟩
             | some cur2 =>
               runDown fail g steps fuel db2 cur2 (count + 1)
                 (applied ++ [cur.revision_id])) := rfl

theorem runDown_stop (fail : String → Bool) (g : NxGraph) (steps : Option Int)
    (fuel : Nat) (db : SDB) (cur : Revision) (count : Nat) (applied : List String)
    (hcond : downCond steps count = false) :
    runDown fail g steps fuel db cur count applied = ⟨db, applied, none⟩ := by
  cases fuel with
  | zero => rfl
  | succ f => rw [runDown_succ_eq, hcond]

theorem sqlite_migrate_down_success (fail : String → Bool) (rows : List SRow)
    (log0 : List String) (clk : Nat) (r : Revision)
    (hf : ∀ q, r.down_sql = some q → fail q = false) :
    ∃ log2 n, sqlite_migrate_down fail (SDB.mk true rows log0 clk) r =
      Except.ok (SDB.mk true
        (rows.filter (fun row => !(row.revision_id == r.revision_id))) log2 clk, n) := by
  have hdel : ∀ log, sqliteDeleteRow (SDB.mk true rows log0 clk) r log =
      Except.ok (SDB.mk true
        (rows.filter (fun row => !(row.revision_id == r.revision_id))) log clk,
        ((rows.length : Int) -
          ((rows.filter (fun row => !(row.revision_id == r.revision_id))).length : Int))) := by
    intro log
    rfl
  unfold sqlite_migrate_down
  cases hdown : r.down_sql with
  | none => exact ⟨log0, _, hdel log0⟩
  | some q =>
    refine ⟨log0 ++ [q], (rows.length : Int) -
      ((rows.filter (fun row => !(row.revision_id == r.revision_id))).length : Int), ?_⟩
    show (match fail q with
      | true => Except.error (DBErr.sqlError q)
      | false => sqliteDeleteRow (SDB.mk true rows log0 clk) r (log0 ++ [q])) = _
    rw [hf q hdown]
    exact hdel _

theorem runDown_chain_some (fail : String → Bool) (g : NxGraph) (k : Nat) :
    ∀ (pref : List Revision) (cur : Revision) (count : Nat)
      (applied log0 : List String) (c0 clk fuel : Nat),
    chainLinks none (pref ++ [cur]) →
    (revIds (pref ++ [cur])).Nodup →
    (∀ r ∈ pref ++ [cur], ∀ q, r.down_sql = some q → fail q = false) →
    (∀ r ∈ pref ++ [cur], get_node g r.revision_id = some r) →
    pref.length + 1 ≤ fuel →
    count < k →
    ∃ log2,
      runDown fail g (some (k : Int)) fuel
          (SDB.mk true (rowsOf (pref ++ [cur]) c0) log0 clk) cur count applied =
        ⟨SDB.mk true (rowsOf ((pref ++ [cur]).take
            (pref.length + 1 - min (k - count) (pref.length + 1))) c0) log2 clk,
         applied ++ (revIds ((pref ++ [cur]).drop
            (pref.length + 1 - min (k - count) (pref.length + 1)))).reverse,
         none⟩ := by
  intro pref
  induction pref using List.reverseRecOn with
  | nil =>
    intro cur count applied log0 c0 clk fuel hc hnd hf hnode hfuel hcount
    cases fuel with
    | zero => exact absurd hfuel (by simp)
    | succ f =>
      rw [runDown_succ_eq]
      have hcond : downCond (some (k : Int)) count = true := by
        show decide ((count : Int) < (k : Int)) = true
        rw [decide_eq_true_eq]
        exact_mod_cast hcount
      rw [hcond]
      rcases sqlite_migrate_down_success fail (rowsOf ([] ++ [cur]) c0) log0 clk cur
        (fun q hq => hf cur (by simp) q hq) with ⟨log2, n, hok⟩
      rw [hok]
      have hfilter : (rowsOf ([] ++ [cur]) c0).filter
          (fun row => !(row.revision_id == cur.revision_id)) = rowsOf [] c0 :=
        filter_rowsOf_last [] cur c0 hnd
      have hdown : cur.down_revision_id = none := hc.1
      rw [hdown]
      have hmin : min (k - count) (List.length ([] : List Revision) + 1) = 1 := by
        simp only [List.length_nil]
        omega
      refine ⟨log2, ?_⟩
      rw [hmin]
      rw [hfilter]
      rfl
  | append_singleton l p ih =>
    intro cur count applied log0 c0 clk fuel hc hnd hf hnode hfuel hcount
    cases fuel with
    | zero =>
      exfalso
      have : (l ++ [p]).length + 1 ≤ 0 := hfuel
      simp at this
    | succ f =>
      rw [runDown_succ_eq]
      have hcond : downCond (some (k : Int)) count = true := by
        show decide ((count : Int) < (k : Int)) = true
        rw [decide_eq_true_eq]
        exact_mod_cast hcount
      rw [hcond]
      rcases sqlite_migrate_down_success fail (rowsOf ((l ++ [p]) ++ [cur]) c0) log0 clk cur
        (fun q hq => hf cur (by simp) q hq) with ⟨log2, n, hok⟩
      have hfilter : (rowsOf ((l ++ [p]) ++ [cur]) c0).filter
          (fun row => !(row.revision_id == cur.revision_id)) = rowsOf (l ++ [p]) c0 :=
        filter_rowsOf_last (l ++ [p]) cur c0 hnd
      have hdown : cur.down_revision_id = some p.revision_id := by
        have := chainLinks_at (l ++ [p]) cur [] none (by simpa using hc)
        rw [this, List.getLast?_concat]
      have hpmem : p ∈ (l ++ [p]) ++ [cur] := by simp
      simp only [hok, hfilter, hdown, hnode p hpmem]
      have hm : (l ++ [p]).length = l.length + 1 := by simp
      by_cases hstop : count + 1 < k
      · rcases ih p (count + 1) (applied ++ [cur.revision_id]) log2 c0 clk f
          (chainLinks_front _ _ _ (by simpa using hc))
          ((@nodup_append_parts (l ++ [p]) [cur]
            (by simpa using hnd)).1)
          (fun r hr q hq => hf r (by simp at hr ⊢; tauto) q hq)
          (fun r hr => hnode r (by simp at hr ⊢; tauto))
          (by simp at hfuel ⊢; omega)
          hstop with ⟨log3, hsub⟩
        rw [hsub]
        refine ⟨log3, ?_⟩
        have ht : (l ++ [p]).length + 1 - min (k - count) ((l ++ [p]).length + 1) =
            (l ++ [p]).length - min (k - (count + 1)) (l.length + 1) := by
          rw [hm]
          omega
        have ht2 : l.length + 1 - min (k - (count + 1)) (l.length + 1) =
            (l ++ [p]).length - min (k - (count + 1)) (l.length + 1) := by
          rw [hm]
        have hle : (l ++ [p]).length - min (k - (count + 1)) (l.length + 1) ≤
            (l ++ [p]).length := by omega
        rw [ht, ht2]
        have htake : ((l ++ [p]) ++ [cur]).take
            ((l ++ [p]).length - min (k - (count + 1)) (l.length + 1)) =
            (l ++ [p]).take
            ((l ++ [p]).length - min (k - (count + 1)) (l.length + 1)) :=
          List.take_append_of_le_length hle
        have hdrop : ((l ++ [p]) ++ [cur]).drop
            ((l ++ [p]).length - min (k - (count + 1)) (l.length + 1)) =
            (l ++ [p]).drop
            ((l ++ [p]).length - min (k - (count + 1)) (l.length + 1)) ++ [cur] :=
          List.drop_append_of_le_length hle
        rw [htake, hdrop]
        have hrevids : revIds ((l ++ [p]).drop
            ((l ++ [p]).length - min (k - (count + 1)) (l.length + 1)) ++ [cur]) =
            revIds ((l ++ [p]).drop
              ((l ++ [p]).length - min (k - (count + 1)) (l.length + 1))) ++
              [cur.revision_id] := by
          unfold revIds
          rw [List.map_append]
          rfl
        rw [hrevids, List.reverse_append]
        show RunResult.mk _ _ none = RunResult.mk _ _ none
        rw [List.append_assoc]
        rfl
      · have hstop2 : downCond (some (k : Int)) (count + 1) = false := by
          show decide (((count + 1 : Nat) : Int) < (k : Int)) = false
          rw [decide_eq_false_iff_not]
          intro hcontra
          have hcc : count + 1 < k := by exact_mod_cast hcontra
          omega
        rw [runDown_stop fail g _ f _ p (count + 1) _ hstop2]
        refine ⟨log2, ?_⟩
        have hmin : min (k - count) ((l ++ [p]).length + 1) = 1 := by
          rw [hm]
          omega
        rw [hmin]
        have htake : ((l ++ [p]) ++ [cur]).take ((l ++ [p]).length + 1 - 1) =
            l ++ [p] := by
          rw [Nat.add_sub_cancel]
          rw [List.take_left]
        have hdrop : ((l ++ [p]) ++ [cur]).drop ((l ++ [p]).length + 1 - 1) =
            [cur] := by
          rw [Nat.add_sub_cancel]
          rw [List.drop_left]
        rw [htake, hdrop]
        show RunResult.mk _ ((applied ++ [cur.revision_id])) none = _
        simp [revIds]

theorem runDown_chain_none (fail : String → Bool) (g : NxGraph) :
    ∀ (pref : List Revision) (cur : Revision) (count : Nat)
      (applied log0 : List String) (c0 clk fuel : Nat),
    chainLinks none (pref ++ [cur]) →
    (revIds (pref ++ [cur])).Nodup →
    (∀ r ∈ pref ++ [cur], ∀ q, r.down_sql = some q → fail q = false) →
    (∀ r ∈ pref ++ [cur], get_node g r.revision_id = some r) →
    pref.length + 1 ≤ fuel →
    ∃ log2,
      runDown fail g none fuel
          (SDB.mk true (rowsOf (pref ++ [cur]) c0) log0 clk) cur count applied =
        ⟨SDB.mk true [] log2 clk,
         applied ++ (revIds (pref ++ [cur])).reverse,
         none⟩ := by
  intro pref
  induction pref using List.reverseRecOn with
  | nil =>
    intro cur count applied log0 c0 clk fuel hc hnd hf hnode hfuel
    cases fuel with
    | zero => exact absurd hfuel (by simp)
    | succ f =>
      rw [runDown_succ_eq]
      rw [show downCond none count = true from rfl]
      rcases sqlite_migrate_down_success fail (rowsOf ([] ++ [cur]) c0) log0 clk cur
        (fun q hq => hf cur (by simp) q hq) with ⟨log2, n, hok⟩
      have hfilter : (rowsOf ([] ++ [cur]) c0).filter
          (fun row => !(row.revision_id == cur.revision_id)) = rowsOf [] c0 :=
        filter_rowsOf_last [] cur c0 hnd
      have hdown : cur.down_revision_id = none := hc.1
      simp only [hok, hfilter, hdown]
      exact ⟨log2, rfl⟩
  | append_singleton l p ih =>
    intro cur count applied log0 c0 clk fuel hc hnd hf hnode hfuel
    cases fuel with
    | zero =>
      exfalso
      have : (l ++ [p]).length + 1 ≤ 0 := hfuel
      simp at this
    | succ f =>
      rw [runDown_succ_eq]
      rw [show downCond none count = true from rfl]
      rcases sqlite_migrate_down_success fail (rowsOf ((l ++ [p]) ++ [cur]) c0) log0 clk cur
        (fun q hq => hf cur (by simp) q hq) with ⟨log2, n, hok⟩
      have hfilter : (rowsOf ((l ++ [p]) ++ [cur]) c0).filter
          (fun row => !(row.revision_id == cur.revision_id)) = rowsOf (l ++ [p]) c0 :=
        filter_rowsOf_last (l ++ [p]) cur c0 hnd
      have hdown : cur.down_revision_id = some p.revision_id := by
        have := chainLinks_at (l ++ [p]) cur [] none (by simpa using hc)
        rw [this, List.getLast?_concat]
      have hpmem : p ∈ (l ++ [p]) ++ [cur] := by simp
      simp only [hok, hfilter, hdown, hnode p hpmem]
      rcases ih p (count + 1) (applied ++ [cur.revision_id]) log2 c0 clk f
        (chainLinks_front _ _ _ (by simpa using hc))
        ((@nodup_append_parts (l ++ [p]) [cur]
          (by simpa using hnd)).1)
        (fun r hr q hq => hf r (by simp at hr ⊢; tauto) q hq)
        (fun r hr => hnode r (by simp at hr ⊢; tauto))
        (by simp at hfuel ⊢; omega) with ⟨log3, hsub⟩
      rw [hsub]
      refine ⟨log3, ?_⟩
      have hrevids : revIds ((l ++ [p]) ++ [cur]) =
          revIds (l ++ [p]) ++ [cur.revision_id] := by
        unfold revIds
        rw [List.map_append]
        rfl
      rw [hrevids, List.reverse_append]
      show RunResult.mk _ _ none = RunResult.mk _ _ none
      rw [List.append_assoc]
      rfl

theorem downgrade_eq (fail : String → Bool) (g : NxGraph) (db : SDB)
    (steps : Option Int) :
    downgrade fail g db steps =
      (match sqlite_get_head_revision db with
       | Except.error e => ⟨db, [], some e⟩
       | Except.ok none => ⟨db, [], none⟩
       | Except.ok (some head) =>
         match get_node g head.revision_id with
         | none => ⟨db, [], some (DBErr.valueError
             ("Migration file for revision " ++ head.revision_id ++ " not found"))⟩
         | some cur => runDown fail g steps (g.nodes.length + 1) db cur 0 []) :=
  rfl

/-- On a chain state whose applied prefix is `d1 ++ [x]`, `downgrade`
reduces to the backward walk from `x`. -/
theorem downgrade_chain_run (fail : String → Bool) (rs d1 : List Revision)
    (x : Revision) (rest2 : List Revision) (hrs : rs = d1 ++ x :: rest2)
    (hc : chainLinks none rs) (hnd : (revIds rs).Nodup)
    (c0 clk : Nat) (log0 : List String) (steps : Option Int) :
    downgrade fail (buildD rs) (SDB.mk true (rowsOf (d1 ++ [x]) c0) log0 clk) steps =
      runDown fail (buildD rs) steps ((buildD rs).nodes.length + 1)
        (SDB.mk true (rowsOf (d1 ++ [x]) c0) log0 clk) x 0 [] := by
  rw [downgrade_eq, get_head_rowsOf]
  have hlast : (rowsOf (d1 ++ [x]) c0).getLast? =
      some (sqliteRowOf x (c0 + d1.length)) := by
    rw [rowsOf_append]
    show (rowsOf d1 c0 ++ [sqliteRowOf x (c0 + d1.length)]).getLast? = _
    rw [List.getLast?_concat]
  rw [hlast]
  show (match get_node (buildD rs)
      (sqliteRowToRevision (sqliteRowOf x (c0 + d1.length))).revision_id with
    | none => _
    | some cur => runDown fail (buildD rs) steps ((buildD rs).nodes.length + 1)
        (SDB.mk true (rowsOf (d1 ++ [x]) c0) log0 clk) cur 0 []) = _
  rw [show (sqliteRowToRevision (sqliteRowOf x (c0 + d1.length))).revision_id =
    x.revision_id from rfl]
  rw [show buildD rs = chainGraph rs from buildD_chain rs hc hnd]
  rw [get_node_chain rs x (by rw [hrs]; simp) hnd]

/-- C6: on a chain with `done` applied (head = last of `done`) and `rest`
pending, `downgrade(steps=k)` applies `apply_down` to exactly
`min(k, |done|)` revisions, walking backward from the head via
`down_revision_id` (stopping at the step limit or after applying the
root's down), leaving the first `|done| - min(k, |done|)` revisions
applied; when the head is absent (`done = []`) it is a no-op. -/
theorem c6_theorem (fail : String → Bool) (done rest : List Revision)
    (hc : chainLinks none (done ++ rest)) (hnd : (revIds (done ++ rest)).Nodup)
    (hfail : ∀ q, fail q = false) (k : Nat) (c0 : Nat) (log0 : List String) :
    (downgrade fail (buildD (done ++ rest))
        (SDB.mk true (rowsOf done c0) log0 (c0 + done.length)) (some (k : Int))).err
      = none ∧
    (downgrade fail (buildD (done ++ rest))
        (SDB.mk true (rowsOf done c0) log0 (c0 + done.length)) (some (k : Int))).applied
      = (revIds (done.drop (done.length - min k done.length))).reverse ∧
    (downgrade fail (buildD (done ++ rest))
        (SDB.mk true (rowsOf done c0) log0 (c0 + done.length)) (some (k : Int))).db.rows
      = rowsOf (done.take (done.length - min k done.length)) c0 ∧
    headIdOf (downgrade fail (buildD (done ++ rest))
        (SDB.mk true (rowsOf done c0) log0 (c0 + done.length)) (some (k : Int))).db
      = (revIds (done.take (done.length - min k done.length))).getLast? := by
  rcases List.eq_nil_or_concat done with hdone | ⟨d1, x, hdone⟩
  · subst hdone
    rw [downgrade_eq, get_head_rowsOf]
    rw [show ((rowsOf ([] : List Revision) c0).getLast?.map sqliteRowToRevision) =
      none from rfl]
    refine ⟨rfl, by simp [revIds], ?_, ?_⟩
    · rw [List.take_nil]
    · rw [List.take_nil]
      show headIdOf (SDB.mk true (rowsOf [] c0) log0 _) = _
      rw [headIdOf_rowsOf]
  · rw [List.concat_eq_append] at hdone
    subst hdone
    have hrs : (d1 ++ [x]) ++ rest = d1 ++ x :: rest := by simp
    rw [downgrade_chain_run fail ((d1 ++ [x]) ++ rest) d1 x rest hrs hc hnd c0
      (c0 + (d1 ++ [x]).length) log0 (some (k : Int))]
    have hlen : (d1 ++ [x]).length = d1.length + 1 := by simp
    by_cases hk : k = 0
    · subst hk
      rw [runDown_stop fail _ _ _ _ x 0 [] (by
        show decide (((0 : Nat) : Int) < ((0 : Nat) : Int)) = false
        rw [decide_eq_false_iff_not]
        simp)]
      have hmin : min 0 (d1 ++ [x]).length = 0 := by omega
      rw [hmin, Nat.sub_zero]
      refine ⟨rfl, by simp [revIds], ?_, ?_⟩
      · rw [List.take_length]
      · rw [List.take_length]
        show headIdOf (SDB.mk true (rowsOf (d1 ++ [x]) c0) log0 _) = _
        rw [headIdOf_rowsOf]
    · have hk1 : 0 < k := Nat.pos_of_ne_zero hk
      have hcpre : chainLinks none (d1 ++ [x]) :=
        chainLinks_front _ _ _ (by simpa using hc)
      have hndpre : (revIds (d1 ++ [x])).Nodup := (nodup_append_parts hnd).1
      rcases runDown_chain_some fail (buildD ((d1 ++ [x]) ++ rest)) k d1 x 0 [] log0
        c0 (c0 + (d1 ++ [x]).length) ((buildD ((d1 ++ [x]) ++ rest)).nodes.length + 1)
        hcpre hndpre
        (fun r _ q _ => hfail q)
        (by
          intro r hr
          rw [show buildD ((d1 ++ [x]) ++ rest) = chainGraph ((d1 ++ [x]) ++ rest)
            from buildD_chain _ hc hnd]
          exact get_node_chain _ r (by simp at hr ⊢; tauto) hnd)
        (by
          rw [show buildD ((d1 ++ [x]) ++ rest) = chainGraph ((d1 ++ [x]) ++ rest)
            from buildD_chain _ hc hnd]
          show d1.length + 1 ≤ (((d1 ++ [x]) ++ rest).map _).length + 1
          simp)
        hk1 with ⟨log2, hrun⟩
      rw [hrun]
      have he : min (k - 0) (d1.length + 1) = min k (d1 ++ [x]).length := by
        rw [hlen]
        omega
      rw [he]
      refine ⟨rfl, ?_, ?_, ?_⟩
      · rw [hlen, List.nil_append]
      · rw [hlen]
      · rw [hlen]
        show headIdOf (SDB.mk true (rowsOf (List.take
          (d1.length + 1 - min k (d1.length + 1)) (d1 ++ [x])) c0) log2 _) = _
        rw [headIdOf_rowsOf]

/-- Witness for C6: chain `r1 → r2 → r3` fully applied; `downgrade(steps=1)`
applies down only to `r3`, leaving head `r2`. -/
theorem c6_witness :
    (downgrade (fun _ => false)
        (buildD ([Revision.mk "r1" none "" none none none none 0,
                  Revision.mk "r2" (some "r1") "" none none none none 0,
                  Revision.mk "r3" (some "r2") "" none none none none 0] ++ []))
        (SDB.mk true (rowsOf [Revision.mk "r1" none "" none none none none 0,
                  Revision.mk "r2" (some "r1") "" none none none none 0,
                  Revision.mk "r3" (some "r2") "" none none none none 0] 0) []
          (0 + ([Revision.mk "r1" none "" none none none none 0,
                  Revision.mk "r2" (some "r1") "" none none none none 0,
                  Revision.mk "r3" (some "r2") "" none none none none 0] : List Revision).length))
        (some ((1 : Nat) : Int))).applied = ["r3"] ∧
    headIdOf (downgrade (fun _ => false)
        (buildD ([Revision.mk "r1" none "" none none none none 0,
                  Revision.mk "r2" (some "r1") "" none none none none 0,
                  Revision.mk "r3" (some "r2") "" none none none none 0] ++ []))
        (SDB.mk true (rowsOf [Revision.mk "r1" none "" none none none none 0,
                  Revision.mk "r2" (some "r1") "" none none none none 0,
                  Revision.mk "r3" (some "r2") "" none none none none 0] 0) []
          (0 + ([Revision.mk "r1" none "" none none none none 0,
                  Revision.mk "r2" (some "r1") "" none none none none 0,
                  Revision.mk "r3" (some "r2") "" none none none none 0] : List Revision).length))
        (some ((1 : Nat) : Int))).db = some "r2" := by
  have h := c6_theorem (fun _ => false)
    [Revision.mk "r1" none "" none none none none 0,
     Revision.mk "r2" (some "r1") "" none none none none 0,
     Revision.mk "r3" (some "r2") "" none none none none 0] []
    (by exact ⟨rfl, rfl, rfl, trivial⟩) (by decide) (fun _ => rfl) 1 0 []
  refine ⟨?_, ?_⟩
  · rw [h.2.1]; rfl
  · rw [h.2.2.2]; rfl

theorem SDB_eta (db : SDB) (R : List SRow) (h1 : db.tableExists = true)
    (h2 : db.rows = R) : db = SDB.mk true R db.userLog db.clock := by
  rcases db with ⟨a, b, c, d⟩
  have h1b : a = true := h1
  have h2b : b = R := h2
  subst h1b
  subst h2b
  rfl

theorem upgrade_empty_run (fail : String → Bool) (rs : List Revision)
    (hc : chainLinks none rs) (hnd : (revIds rs).Nodup)
    (c0 : Nat) (log0 : List String) (steps : Option Int) :
    upgrade fail (buildD rs) (SDB.mk true [] log0 c0) steps =
      runUp fail steps rs (SDB.mk true [] log0 c0) 0 [] := by
  have h := upgrade_chain_run fail [] rs (by simpa) (by simpa) c0 log0 steps
  simp only [List.nil_append, rowsOf_nil, List.length_nil, Nat.add_zero] at h
  exact h

/-- C3 (round trip): on an initially empty bookkeeping table, running
`upgrade` with no step limit (which applies the whole chain in order)
followed by `downgrade` with no step limit (which down-migrates all of
it in reverse) leaves `get_head()` absent — as it was before — and the
applied set empty. -/
theorem c3_theorem (fail : String → Bool) (rs : List Revision)
    (hc : chainLinks none rs) (hnd : (revIds rs).Nodup)
    (hfail : ∀ q, fail q = false) (c0 : Nat) (log0 : List String) :
    headIdOf (SDB.mk true [] log0 c0) = none ∧
    (upgrade fail (buildD rs) (SDB.mk true [] log0 c0) none).err = none ∧
    (upgrade fail (buildD rs) (SDB.mk true [] log0 c0) none).applied = revIds rs ∧
    (downgrade fail (buildD rs)
      (upgrade fail (buildD rs) (SDB.mk true [] log0 c0) none).db none).err = none ∧
    (downgrade fail (buildD rs)
      (upgrade fail (buildD rs) (SDB.mk true [] log0 c0) none).db none).applied
      = (revIds rs).reverse ∧
    (downgrade fail (buildD rs)
      (upgrade fail (buildD rs) (SDB.mk true [] log0 c0) none).db none).db.rows = [] ∧
    headIdOf (downgrade fail (buildD rs)
      (upgrade fail (buildD rs) (SDB.mk true [] log0 c0) none).db none).db = none := by
  rw [upgrade_empty_run fail rs hc hnd c0 log0 none]
  have hrun := runUp_nolimit fail none (Or.inl rfl) rs (SDB.mk true [] log0 c0) 0 []
    rfl (fun r _ q _ => hfail q) (by simp) hnd
  have hrows0 : (SDB.mk true ([] : List SRow) log0 c0).rows = [] := rfl
  have hclk0 : (SDB.mk true ([] : List SRow) log0 c0).clock = c0 := rfl
  rw [hrows0, hclk0, List.nil_append, List.nil_append] at hrun
  refine ⟨rfl, hrun.2.2.2.2, hrun.2.2.2.1, ?_⟩
  rcases List.eq_nil_or_concat rs with hrs | ⟨d1, x, hrs⟩
  · subst hrs
    have hempty : runUp fail none ([] : List Revision) (SDB.mk true [] log0 c0) 0 [] =
        ⟨SDB.mk true [] log0 c0, [], none⟩ := rfl
    rw [hempty]
    rw [downgrade_eq]
    rw [show sqlite_get_head_revision
      (RunResult.mk (SDB.mk true [] log0 c0) [] none).db = Except.ok none from rfl]
    exact ⟨rfl, rfl, rfl, rfl⟩
  · rw [List.concat_eq_append] at hrs
    subst hrs
    have hdb := SDB_eta (runUp fail none (d1 ++ [x]) (SDB.mk true [] log0 c0) 0 []).db
      (rowsOf (d1 ++ [x]) c0) hrun.1 hrun.2.1
    rw [hdb]
    rw [downgrade_chain_run fail (d1 ++ [x]) d1 x [] (by simp) hc hnd c0
      (runUp fail none (d1 ++ [x]) (SDB.mk true [] log0 c0) 0 []).db.clock
      (runUp fail none (d1 ++ [x]) (SDB.mk true [] log0 c0) 0 []).db.userLog none]
    rcases runDown_chain_none fail (buildD (d1 ++ [x])) d1 x 0 []
      (runUp fail none (d1 ++ [x]) (SDB.mk true [] log0 c0) 0 []).db.userLog c0
      (runUp fail none (d1 ++ [x]) (SDB.mk true [] log0 c0) 0 []).db.clock
      ((buildD (d1 ++ [x])).nodes.length + 1)
      hc hnd
      (fun r _ q _ => hfail q)
      (by
        intro r hr
        rw [show buildD (d1 ++ [x]) = chainGraph (d1 ++ [x])
          from buildD_chain _ hc hnd]
        exact get_node_chain _ r hr hnd)
      (by
        rw [show buildD (d1 ++ [x]) = chainGraph (d1 ++ [x])
          from buildD_chain _ hc hnd]
        show d1.length + 1 ≤ ((d1 ++ [x]).map _).length + 1
        simp)
      with ⟨log3, hdn⟩
    rw [hdn]
    refine ⟨rfl, by simp, rfl, ?_⟩
    show headIdOf (SDB.mk true (rowsOf [] 0)
      log3 (runUp fail none (d1 ++ [x]) (SDB.mk true [] log0 c0) 0 []).db.clock) = none
    rw [headIdOf_rowsOf]
    rfl

/-- Witness for C3 at a concrete two-revision chain. -/
theorem c3_witness :
    headIdOf (SDB.mk true [] [] 0) = none ∧
    (downgrade (fun _ => false)
      (buildD [Revision.mk "a" none "" none none none none 0,
               Revision.mk "b" (some "a") "" none none none none 0])
      (upgrade (fun _ => false)
        (buildD [Revision.mk "a" none "" none none none none 0,
                 Revision.mk "b" (some "a") "" none none none none 0])
        (SDB.mk true [] [] 0) none).db none).db.rows = [] ∧
    headIdOf (downgrade (fun _ => false)
      (buildD [Revision.mk "a" none "" none none none none 0,
               Revision.mk "b" (some "a") "" none none none none 0])
      (upgrade (fun _ => false)
        (buildD [Revision.mk "a" none "" none none none none 0,
                 Revision.mk "b" (some "a") "" none none none none 0])
        (SDB.mk true [] [] 0) none).db none).db = none := by
  have h := c3_theorem (fun _ => false)
    [Revision.mk "a" none "" none none none none 0,
     Revision.mk "b" (some "a") "" none none none none 0]
    ⟨rfl, rfl, trivial⟩ (by decide) (fun _ => rfl) 0 []
  exact ⟨h.1, h.2.2.2.2.2.1, h.2.2.2.2.2.2⟩

/-! ## Filtered upgrade (spec §4.5)

The coordinator draft with author/tag filters and the continuity check is
not present under `src/` — `cli/main.py` calls
`MigrationService.upgrade(steps=steps, author=author, tags=tags_list)` and
`tests/test_migration.py` exercises `filter_migrations`, but
`migration.py` only has the unfiltered `upgrade`.  The definitions below
are therefore modelled from the spec's words (§4.5 upgrade plan, §4.6
filter contracts). -/

/-- Modelled from the spec: author filter — equality on the author field;
a revision with absent author never matches a non-empty author filter
(§4.6). -/
def matchesAuthor (author : Option String) (r : Revision) : Bool :=
  match author with
  | none => true
  | some a => r.author == some a

/-- Modelled from the spec: tag filter — a revision matches when its tag
set intersects the requested set; absent/empty tags never match a
non-empty tag filter (§4.6). -/
def matchesTags (tags : List String) (r : Revision) : Bool :=
  match tags with
  | [] => true
  | _ => (r.tags.getD []).any (fun t => tags.contains t)

/-- Modelled from the spec: apply both filter predicates to the candidate
sequence (§4.5 step 4). -/
def filterRevisions (author : Option String) (tags : List String)
    (rs : List Revision) : List Revision :=
  rs.filter (fun r => matchesAuthor author r && matchesTags tags r)

/-- Modelled from the spec: the continuity check — the filtered sequence
must satisfy `S'[0].down_revision_id == head` (absent when head is
absent) and `S'[i].down_revision_id == S'[i-1].revision_id`; a violation
names the offending revision and its missing dependency (§4.5 step 4). -/
def continuityCheck : Option String → List Revision → Option (String × Option String)
  | _, [] => none
  | prev, r :: rest =>
    match r.down_revision_id == prev with
    | true => continuityCheck (some r.revision_id) rest
    | false => some (r.revision_id, r.down_revision_id)

/-- Modelled from the spec: steps 2–3 of the upgrade plan — read the head
and compute the candidate sequence `iter()` / `iter_from(head)`. -/
def candidateSeq (g : NxGraph) (db : SDB) : Except DBErr (List Revision) :=
  match sqlite_get_head_revision (sqlite_create_table db) with
  | Except.error e => Except.error e
  | Except.ok none => Except.ok (iterList g)
  | Except.ok (some head) => iter_from g head.revision_id

/-- Apply a planned sequence in order, halting at the first error
(earlier revisions remain applied). -/
def applySeq (fail : String → Bool) :
    List Revision → SDB → List String → SDB × List String × Option DBErr
  | [], db, applied => (db, applied, none)
  | r :: rest, db, applied =>
    match sqlite_migrate_up fail db r with
    | Except.error e => (db, applied, some e)
    | Except.ok (db2, _) => applySeq fail rest db2 (applied ++ [r.revision_id])

/-- Result of a filtered upgrade: final state, applied revision ids, the
planning error if the continuity check failed, and the first database
error if one occurred. -/
structure PlanResult where
  db : SDB
  applied : List String
  planError : Option (String × Option String)
  err : Option DBErr
deriving Repr, DecidableEq

/-- Modelled from the spec: the filtered upgrade plan of §4.5 — ensure
the bookkeeping table, read head, compute the candidate sequence, filter
it, run the continuity check when any filter is active, truncate to
`steps`, then apply in order. -/
def truncateSteps (steps : Option Int) (sf : List Revision) : List Revision :=
  match steps with
  | none => sf
  | some k => sf.take k.toNat

def upgradeFiltered (fail : String → Bool) (g : NxGraph) (db : SDB)
    (steps : Option Int) (author : Option String) (tags : List String) : PlanResult :=
  match sqlite_get_head_revision (sqlite_create_table db) with
  | Except.error e => ⟨sqlite_create_table db, [], none, some e⟩
  | Except.ok headOpt =>
    match (match headOpt with
           | none => Except.ok (iterList g)
           | some head => iter_from g head.revision_id) with
    | Except.error e => ⟨sqlite_create_table db, [], none, some e⟩
    | Except.ok s0 =>
      match author.isSome || !tags.isEmpty with
      | true =>
        match continuityCheck (headOpt.map (fun h => h.revision_id))
            (filterRevisions author tags s0) with
        | some v => ⟨sqlite_create_table db, [], some v, none⟩
        | none =>
          match applySeq fail (truncateSteps steps (filterRevisions author tags s0))
              (sqlite_create_table db) [] with
          | (db3, applied, e) => ⟨db3, applied, none, e⟩
      | false =>
        match applySeq fail (truncateSteps steps (filterRevisions author tags s0))
            (sqlite_create_table db) [] with
        | (db3, applied, e) => ⟨db3, applied, none, e⟩

theorem continuityCheck_mem : ∀ (l : List Revision) (prev : Option String)
    (o : String) (d : Option String), continuityCheck prev l = some (o, d) →
    ∃ r ∈ l, r.revision_id = o ∧ r.down_revision_id = d := by
  intro l
  induction l with
  | nil => intro prev o d h; exact absurd h (by simp [continuityCheck])
  | cons r rest ih =>
    intro prev o d h
    unfold continuityCheck at h
    cases hb : (r.down_revision_id == prev) with
    | true =>
      rw [hb] at h
      rcases ih (some r.revision_id) o d h with ⟨r2, hr2, h2⟩
      exact ⟨r2, List.mem_cons_of_mem _ hr2, h2⟩
    | false =>
      rw [hb] at h
      simp only [Option.some.injEq, Prod.mk.injEq] at h
      exact ⟨r, List.mem_cons_self _ _, h.1, h.2⟩

/-- C1 (spec-modelled): with an active author or tag filter, if the
filtered subsequence of pending revisions is not a contiguous chain
starting at the current head, the upgrade raises a planning error naming
the offending revision and its missing dependency, and applies no
revision (the database state is untouched). -/
theorem upgradeFiltered_ok (fail : String → Bool) (g : NxGraph) (db : SDB)
    (steps : Option Int) (author : Option String) (tags : List String)
    (headOpt : Option Revision) (s0 : List Revision)
    (hh : sqlite_get_head_revision (sqlite_create_table db) = Except.ok headOpt)
    (hS : (match headOpt with
           | none => Except.ok (iterList g)
           | some head => iter_from g head.revision_id) = Except.ok s0) :
    upgradeFiltered fail g db steps author tags =
      (match author.isSome || !tags.isEmpty with
       | true =>
         match continuityCheck (headOpt.map (fun h => h.revision_id))
             (filterRevisions author tags s0) with
         | some v => ⟨sqlite_create_table db, [], some v, none⟩
         | none =>
           match applySeq fail (truncateSteps steps (filterRevisions author tags s0))
               (sqlite_create_table db) [] with
           | (db3, applied, e) => ⟨db3, applied, none, e⟩
       | false =>
         match applySeq fail (truncateSteps steps (filterRevisions author tags s0))
             (sqlite_create_table db) [] with
         | (db3, applied, e) => ⟨db3, applied, none, e⟩) := by
  unfold upgradeFiltered
  simp only [hh, hS]

/-- C1 (spec-modelled): with an active author or tag filter, if the
filtered subsequence of pending revisions is not a contiguous chain
starting at the current head, the upgrade raises a planning error naming
the offending revision and its missing dependency, and applies no
revision (the database state is untouched). -/
theorem c1_theorem (fail : String → Bool) (g : NxGraph) (db : SDB)
    (steps : Option Int) (author : Option String) (tags : List String)
    (s0 : List Revision) (o : String) (d : Option String)
    (hS : candidateSeq g db = Except.ok s0)
    (hactive : (author.isSome || !tags.isEmpty) = true)
    (hviol : continuityCheck (headIdOf (sqlite_create_table db))
        (filterRevisions author tags s0) = some (o, d)) :
    upgradeFiltered fail g db steps author tags =
      ⟨sqlite_create_table db, [], some (o, d), none⟩ ∧
    ∃ r ∈ filterRevisions author tags s0,
      r.revision_id = o ∧ r.down_revision_id = d := by
  refine ⟨?_, continuityCheck_mem _ _ o d hviol⟩
  unfold candidateSeq at hS
  cases hh : sqlite_get_head_revision (sqlite_create_table db) with
  | error e => rw [hh] at hS; exact absurd hS (by simp)
  | ok headOpt =>
    rw [hh] at hS
    have hS2 : (match headOpt with
        | none => Except.ok (iterList g)
        | some head => iter_from g head.revision_id) = Except.ok s0 := by
      cases headOpt
      · exact hS
      · exact hS
    rw [upgradeFiltered_ok fail g db steps author tags headOpt s0 hh hS2, hactive]
    have hprev : headOpt.map (fun h => h.revision_id) =
        headIdOf (sqlite_create_table db) := by
      unfold headIdOf
      rw [hh]
      cases headOpt <;> rfl
    rw [hprev, hviol]

/-- Witness for C1: unapplied `r1(author=A)`, `r2(author=B)`,
`r3(author=A)`; `upgrade(author="A")` fails the continuity check at `r3`
whose dependency `r2` was filtered out, and applies nothing. -/
theorem c1_witness :
    candidateSeq (buildD
        [Revision.mk "r1" none "" none (some "A") none none 0,
         Revision.mk "r2" (some "r1") "" none (some "B") none none 0,
         Revision.mk "r3" (some "r2") "" none (some "A") none none 0])
      (SDB.mk true [] [] 0) = Except.ok
        [Revision.mk "r1" none "" none (some "A") none none 0,
         Revision.mk "r2" (some "r1") "" none (some "B") none none 0,
         Revision.mk "r3" (some "r2") "" none (some "A") none none 0] ∧
    upgradeFiltered (fun _ => false) (buildD
        [Revision.mk "r1" none "" none (some "A") none none 0,
         Revision.mk "r2" (some "r1") "" none (some "B") none none 0,
         Revision.mk "r3" (some "r2") "" none (some "A") none none 0])
      (SDB.mk true [] [] 0) none (some "A") [] =
      ⟨sqlite_create_table (SDB.mk true [] [] 0), [], some ("r3", some "r2"), none⟩ := by
  refine ⟨by rfl, ?_⟩
  exact (c1_theorem (fun _ => false) _ (SDB.mk true [] [] 0) none (some "A") []
    [Revision.mk "r1" none "" none (some "A") none none 0,
     Revision.mk "r2" (some "r1") "" none (some "B") none none 0,
     Revision.mk "r3" (some "r2") "" none (some "A") none none 0]
    "r3" (some "r2") (by rfl) (by rfl) (by rfl)).1

/-! ## C7: header parsing (`wandern/utils.py` `parse_sql_file_content`,
regexes from `wandern/constants.py`) -/

/-- Python `re` `\s` on ASCII text: space, tab, newline, carriage return,
vertical tab, form feed. -/
def isWS (c : Char) : Bool :=
  c == ' ' || c == '\t' || c == '\n' || c == '\r' || c == '\x0b' || c == '\x0c'

/-- Python `re` `\w` on ASCII text: letters, digits and underscore. -/
def isWordChar (c : Char) : Bool :=
  ('a' ≤ c && c ≤ 'z') || ('A' ≤ c && c ≤ 'Z') || ('0' ≤ c && c ≤ '9') || c == '_'

/-- Length of the maximal `\s` run at the head of `s`. -/
def wsRun : List Char → Nat
  | [] => 0
  | c :: rest =>
    match isWS c with
    | true => wsRun rest + 1
    | false => 0

/-- Python `str.strip()`: remove leading and trailing whitespace. -/
def pyStrip (s : List Char) : List Char :=
  ((s.dropWhile (fun c => isWS c)).reverse.dropWhile (fun c => isWS c)).reverse

/-- Python `str.lower()` on ASCII text. -/
def pyLower (s : List Char) : List Char := s.map Char.toLower

/-- Case-insensitive literal match of `label` (given in lowercase) against
a prefix of `s`; returns the remainder on success.  This is how `re`
matches a literal under `re.IGNORECASE`. -/
def ciLookingAt : List Char → List Char → Option (List Char)
  | [], s => some s
  | _ :: _, [] => none
  | l :: ls, c :: cs =>
    match l == c.toLower with
    | true => ciLookingAt ls cs
    | false => none

/-- Greedy `[^\n]+` at the head of `s`: at least one character, stopping
at the first newline. -/
def lineCapture : List Char → Option (List Char)
  | [] => none
  | c :: cs =>
    match c == '\n' with
    | true => none
    | false => some ((c :: cs).takeWhile (fun x => x != '\n'))

/-- Backtracking for `\s*([^\n]+)`: greedy `\s*` tries `k` characters of
the leading whitespace run, longest first (a whitespace character given
back by `\s*` can still be consumed by `[^\n]+` when it is not a
newline). -/
def backtrackLine (rest : List Char) : Nat → Option (List Char)
  | 0 => lineCapture rest
  | k + 1 =>
    match lineCapture (rest.drop (k + 1)) with
    | some cap => some cap
    | none => backtrackLine rest k

/-- Match `\s*(?P<g>[^\n]+)` at the head of `rest` (the shared tail of
`REGEX_TIMESTAMP`, `REGEX_MESSAGE`, `REGEX_AUTHOR`, `REGEX_TAGS`). -/
def lineTail (rest : List Char) : Option (List Char) :=
  backtrackLine rest (wsRun rest)

/-- Greedy `\w+` at the head of `s`. -/
def wordCapture : List Char → Option (List Char)
  | [] => none
  | c :: cs =>
    match isWordChar c with
    | true => some ((c :: cs).takeWhile isWordChar)
    | false => none

/-- Match `\s*(?P<g>\w+)` at the head of `rest` (the tail of
`REGEX_REVISES` and `REGEX_REVISION_ID`): since `\s` and `\w` are
disjoint, greedy `\s*` commits to the whole whitespace run. -/
def wordTail (rest : List Char) : Option (List Char) :=
  wordCapture (rest.drop (wsRun rest))

/-- `re.search` for a case-insensitive literal `label` (nonempty, given
in lowercase) followed by the tail matcher `f`: try each start position
left to right, first success wins. -/
def searchCI (label : List Char) (f : List Char → Option (List Char)) :
    List Char → Option (List Char)
  | [] => none
  | c :: cs =>
    match ciLookingAt label (c :: cs) with
    | some rest =>
      match f rest with
      | some cap => some cap
      | none => searchCI label f cs
    | none => searchCI label f cs

/-- `REGEX_TIMESTAMP.search`: `Timestamp:\s*(?P<timestamp>[^\n]+)`,
`re.IGNORECASE`. -/
def searchTimestamp (block : List Char) : Option (List Char) :=
  searchCI (("timestamp:").toList) lineTail block

/-- Tail of `REGEX_REVISION_ID` after the literal `Revision`:
`\s+ID:\s*(?P<revision_id>\w+)`.  `\s+` needs at least one whitespace
character, and since `ID:` starts with a non-whitespace character only
the maximal whitespace run can be followed by it. -/
def revisionIdTail (rest : List Char) : Option (List Char) :=
  match wsRun rest with
  | 0 => none
  | k + 1 =>
    match ciLookingAt (("id:").toList) (rest.drop (k + 1)) with
    | some rest2 => wordTail rest2
    | none => none

/-- `REGEX_REVISION_ID.search`:
`Revision\s+ID:\s*(?P<revision_id>\w+)`, `re.IGNORECASE`. -/
def searchRevisionId (block : List Char) : Option (List Char) :=
  searchCI (("revision").toList) revisionIdTail block

/-- `REGEX_REVISES.search`: `Revises:\s*(?P<revises>\w+)`,
`re.IGNORECASE`.  The capture is `\w+`: it can never be empty. -/
def searchRevises (block : List Char) : Option (List Char) :=
  searchCI (("revises:").toList) wordTail block

/-- `REGEX_MESSAGE.search`: `Message:\s*(?P<message>[^\n]+)`,
`re.IGNORECASE`. -/
def searchMessage (block : List Char) : Option (List Char) :=
  searchCI (("message:").toList) lineTail block

/-- `REGEX_AUTHOR.search`: `Author:\s*(?P<author>[^\n]+)`,
`re.IGNORECASE`. -/
def searchAuthor (block : List Char) : Option (List Char) :=
  searchCI (("author:").toList) lineTail block

/-- `REGEX_TAGS.search`: `Tags:\s*(?P<tags>[^\n]+)`, `re.IGNORECASE`. -/
def searchTags (block : List Char) : Option (List Char) :=
  searchCI (("tags:").toList) lineTail block

/-- The `Revision` fields that `parse_sql_file_content` extracts from the
matched comment block, as raw character lists (`up_sql`/`down_sql` and
the `datetime.fromisoformat` conversion of `created_at` are outside the
header-extraction step embedded here). -/
structure HeaderRevision where
  revision_id : List Char
  down_revision_id : Option (List Char)
  message : List Char
  author : Option (List Char)
  tags : Option (List (List Char))
  created_at : List Char
deriving Repr, DecidableEq

/-- `utils.parse_sql_file_content`, header-extraction part: given the
`comment_block` captured by `REGEX_MIGRATION_PARSER`, search the six
field regexes, raise the `ValueError` for a missing required field in
source order (Timestamp, Revision ID, Revises, Message), `.strip()` the
captured values, and store `None` for `down_revision_id` when the
stripped `Revises` value is falsy (empty) or lowercases to `"none"`;
`author` stays `None` when absent and `tags` is split on commas. -/
def parse_sql_file_content (block : List Char) : Except String HeaderRevision :=
  match searchTimestamp block with
  | none => Except.error "Timestamp field is required in migration file"
  | some ts =>
  match searchRevisionId block with
  | none => Except.error "Revision ID field is required in migration file"
  | some rid =>
  match searchRevises block with
  | none => Except.error "Revises field is required in migration file"
  | some rev =>
  match searchMessage block with
  | none => Except.error "Message field is required in migration file"
  | some msg =>
  Except.ok
    { revision_id := pyStrip rid
      down_revision_id :=
        match ((pyStrip rev).isEmpty || (pyLower (pyStrip rev) == ("none").toList)) with
        | true => none
        | false => some (pyStrip rev)
      message := pyStrip msg
      author := (searchAuthor block).map pyStrip
      tags := (searchTags block).map (fun t => splitCommaL (pyStrip t))
      created_at := pyStrip ts }

theorem wordCapture_spec (s cap : List Char) (h : wordCapture s = some cap) :
    cap ≠ [] ∧ ∀ c ∈ cap, isWordChar c = true := by
  cases s with
  | nil => simp [wordCapture] at h
  | cons c cs =>
    simp only [wordCapture] at h
    cases hc : isWordChar c with
    | false => rw [hc] at h; exact absurd h (by simp)
    | true =>
      rw [hc] at h
      simp only [Option.some.injEq] at h
      subst h
      constructor
      · simp [List.takeWhile_cons, hc]
      · intro x hx
        exact List.mem_takeWhile_imp hx

theorem searchCI_spec (label : List Char) (f : List Char → Option (List Char))
    (P : List Char → Prop) (hf : ∀ rest cap, f rest = some cap → P cap) :
    ∀ s cap, searchCI label f s = some cap → P cap := by
  intro s
  induction s with
  | nil => intro cap h; simp [searchCI] at h
  | cons c cs ih =>
    intro cap h
    simp only [searchCI] at h
    cases hl : ciLookingAt label (c :: cs) with
    | none => simp only [hl] at h; exact ih cap h
    | some rest =>
      simp only [hl] at h
      cases hr : f rest with
      | none => simp only [hr] at h; exact ih cap h
      | some cap2 =>
        simp only [hr, Option.some.injEq] at h
        subst h
        exact hf rest cap2 hr

theorem searchRevises_spec (block cap : List Char)
    (h : searchRevises block = some cap) :
    cap ≠ [] ∧ ∀ c ∈ cap, isWordChar c = true :=
  searchCI_spec (("revises:").toList) wordTail
    (fun cap => cap ≠ [] ∧ ∀ c ∈ cap, isWordChar c = true)
    (fun rest c hr => wordCapture_spec (rest.drop (wsRun rest)) c hr)
    block cap h

theorem isWS_eq_false_of_word (c : Char) (h : isWordChar c = true) :
    isWS c = false := by
  cases hw : isWS c with
  | false => rfl
  | true =>
    exfalso
    unfold isWS at hw
    simp only [Bool.or_eq_true, beq_iff_eq] at hw
    rcases hw with (((((h1 | h1) | h1) | h1) | h1) | h1) <;>
      (subst h1; exact absurd h (by decide))

theorem pyStrip_of_word (cap : List Char)
    (hall : ∀ c ∈ cap, isWordChar c = true) : pyStrip cap = cap := by
  have hdrop : ∀ (l : List Char), (∀ c ∈ l, isWordChar c = true) →
      l.dropWhile (fun c => isWS c) = l := by
    intro l hl
    cases l with
    | nil => rfl
    | cons c cs =>
      rw [List.dropWhile_cons]
      rw [isWS_eq_false_of_word c (hl c (List.mem_cons_self _ _))]
      simp
  unfold pyStrip
  rw [hdrop cap hall]
  rw [hdrop cap.reverse (fun c hc => hall c (List.mem_reverse.mp hc))]
  exact List.reverse_reverse cap

/-- C7 (amended): header parsing of the comment block yields a root
revision (`down_revision_id` absent) exactly when the captured `Revises`
token lowercases to `"none"` — never because the value is empty, since
the `\w+` capture of `REGEX_REVISES` is always a nonempty word (an empty
`Revises:` value makes the search fail, so parsing raises
"Revises field is required" instead of yielding a root revision, contrary
to the claim's "or is empty"); and when a required header — Timestamp,
Revision ID, Revises or Message — is missing, parsing fails with the
matching error, field labels being matched case-insensitively throughout
(`searchTimestamp` … `searchMessage` lower both label and text). -/
theorem c7_theorem (block : List Char) :
    (∀ hr, parse_sql_file_content block = Except.ok hr →
      ((hr.down_revision_id = none ↔
          ∃ w, searchRevises block = some w ∧
            pyLower (pyStrip w) = ("none").toList) ∧
        ∀ w, searchRevises block = some w → pyStrip w ≠ [])) ∧
    (searchTimestamp block = none →
      parse_sql_file_content block =
        Except.error "Timestamp field is required in migration file") ∧
    (searchTimestamp block ≠ none → searchRevisionId block = none →
      parse_sql_file_content block =
        Except.error "Revision ID field is required in migration file") ∧
    (searchTimestamp block ≠ none → searchRevisionId block ≠ none →
      searchRevises block = none →
      parse_sql_file_content block =
        Except.error "Revises field is required in migration file") ∧
    (searchTimestamp block ≠ none → searchRevisionId block ≠ none →
      searchRevises block ≠ none → searchMessage block = none →
      parse_sql_file_content block =
        Except.error "Message field is required in migration file") := by
  refine ⟨?_, ?_, ?_, ?_, ?_⟩
  · intro hr hok
    unfold parse_sql_file_content at hok
    cases hts : searchTimestamp block with
    | none => rw [hts] at hok; exact absurd hok (by simp)
    | some ts =>
      rw [hts] at hok
      cases hrid : searchRevisionId block with
      | none => rw [hrid] at hok; exact absurd hok (by simp)
      | some rid =>
        rw [hrid] at hok
        cases hrev : searchRevises block with
        | none => rw [hrev] at hok; exact absurd hok (by simp)
        | some rev =>
          rw [hrev] at hok
          cases hmsg : searchMessage block with
          | none => rw [hmsg] at hok; exact absurd hok (by simp)
          | some msg =>
            rw [hmsg] at hok
            rcases searchRevises_spec block rev hrev with ⟨hne, hall⟩
            have hstrip : pyStrip rev = rev := pyStrip_of_word rev hall
            simp only [Except.ok.injEq] at hok
            have hdown : hr.down_revision_id =
                (match ((pyStrip rev).isEmpty ||
                    (pyLower (pyStrip rev) == ("none").toList)) with
                 | true => (none : Option (List Char))
                 | false => some (pyStrip rev)) := by
              rw [← hok]
            have hemp : rev.isEmpty = false := by
              cases rev with
              | nil => exact absurd rfl hne
              | cons a l => rfl
            rw [hstrip] at hdown
            refine ⟨?_, ?_⟩
            · cases hb : (pyLower rev == ("none").toList) with
              | true =>
                simp only [hb, Bool.or_true] at hdown
                constructor
                · intro _
                  refine ⟨rev, rfl, ?_⟩
                  rw [hstrip]
                  exact eq_of_beq hb
                · intro _
                  exact hdown
              | false =>
                simp only [hemp, hb, Bool.or_self] at hdown
                constructor
                · intro h
                  rw [hdown] at h
                  exact Option.noConfusion h
                · rintro ⟨w, hw, hlow⟩
                  have he : rev = w := Option.some.inj hw
                  rw [← he, hstrip] at hlow
                  rw [hlow] at hb
                  simp at hb
            · intro w hw
              have he : rev = w := Option.some.inj hw
              rw [← he, hstrip]
              exact hne
  · intro hts
    unfold parse_sql_file_content
    simp only [hts]
  · intro hts hrid
    rcases Option.ne_none_iff_exists'.mp hts with ⟨ts, hts2⟩
    unfold parse_sql_file_content
    simp only [hts2, hrid]
  · intro hts hrid hrev
    rcases Option.ne_none_iff_exists'.mp hts with ⟨ts, hts2⟩
    rcases Option.ne_none_iff_exists'.mp hrid with ⟨rid, hrid2⟩
    unfold parse_sql_file_content
    simp only [hts2, hrid2, hrev]
  · intro hts hrid hrev hmsg
    rcases Option.ne_none_iff_exists'.mp hts with ⟨ts, hts2⟩
    rcases Option.ne_none_iff_exists'.mp hrid with ⟨rid, hrid2⟩
    rcases Option.ne_none_iff_exists'.mp hrev with ⟨rev, hrev2⟩
    unfold parse_sql_file_content
    simp only [hts2, hrid2, hrev2, hmsg]

/-- A comment block whose `Revises:` header is present but carries an
empty value, with all other required headers in place. -/
def cexBlockC7 : List Char :=
  ("Timestamp: 2024-01-01T00:00:00\nRevision ID: abc123\nMessage: add users table\nRevises:").toList

/-- The same block with the value `none` supplied after `Revises:`. -/
def fixedBlockC7 : List Char := cexBlockC7 ++ (" none").toList

/-- C7 counterexample: the claim says an empty `Revises` value yields a
root Revision, but on a block that otherwise matches the format — the
same block parses successfully as a root revision once the value `none`
is supplied — an empty `Revises:` value makes `REGEX_REVISES` (whose
capture is `\w+`) fail to match, and parsing raises
"Revises field is required in migration file" instead. -/
theorem c7_counterexample :
    parse_sql_file_content cexBlockC7 =
      Except.error "Revises field is required in migration file" ∧
    parse_sql_file_content fixedBlockC7 =
      Except.ok
        { revision_id := ("abc123").toList
          down_revision_id := none
          message := ("add users table").toList
          author := none
          tags := none
          created_at := ("2024-01-01T00:00:00").toList } := by
  exact ⟨rfl, rfl⟩

/-- A block with mixed-case field labels, a tab after `revises:`, the
two-word `Revision ID` label spelled `rEvIsIoN   iD`, and `Revises`
value `NoNe`. -/
def wBlockC7 : List Char :=
  ("TIMESTAMP:  2024-05-01\nrEvIsIoN   iD: a1b2c3\nrevises:\tNoNe\nMESSAGE:   first migration  \nauthor: jane").toList

/-- The parse of `wBlockC7`. -/
def wHRC7 : HeaderRevision :=
  { revision_id := ("a1b2c3").toList
    down_revision_id := none
    message := ("first migration").toList
    author := some (("jane").toList)
    tags := none
    created_at := ("2024-05-01").toList }

/-- A block missing the `Message` header. -/
def wBlockMissingC7 : List Char :=
  ("Timestamp: 2024-06-01\nRevision ID: zz9\nRevises: aa1").toList

/-- Witness for C7: mixed-case labels parse (case-insensitive matching),
`Revises: NoNe` yields a root revision by `c7_theorem`, and a block
missing `Message` fails with the matching error by `c7_theorem`. -/
theorem c7_witness :
    parse_sql_file_content wBlockC7 = Except.ok wHRC7 ∧
    wHRC7.down_revision_id = none ∧
    parse_sql_file_content wBlockMissingC7 =
      Except.error "Message field is required in migration file" := by
  refine ⟨rfl, ?_, ?_⟩
  · exact ((c7_theorem wBlockC7).1 wHRC7 rfl).1.mpr ⟨("NoNe").toList, rfl, rfl⟩
  · exact (c7_theorem wBlockMissingC7).2.2.2.2 (by decide) (by decide) (by decide) rfl

/-! ## C8: `list_migrations` tag filtering
(`SQLiteProvider.list_migrations`, `PostgresProvider.list_migrations`) -/

/-- SQLite's `LIKE` operator: `%` matches any character sequence, `_` any
single character, any other pattern character matches one text character
case-insensitively (SQLite's `LIKE` is case-insensitive for ASCII). -/
def likeMatch : List Char → List Char → Bool
  | [], s => s.isEmpty
  | c :: p, [] =>
    match c == '%' with
    | true => likeMatch p []
    | false => false
  | c :: p, d :: s =>
    match c == '%' with
    | true => likeMatch p (d :: s) || likeMatch (c :: p) s
    | false => ((c == '_') || (c.toLower == d.toLower)) && likeMatch p s

/-- One disjunct of the SQLite tag filter, for requested tag `t`:
`(tags IS NOT NULL AND (tags = :tag OR tags LIKE '{tag},%' OR
tags LIKE '%,{tag}' OR tags LIKE '%,{tag},%'))`. -/
def sqliteTagCondition (stored : Option String) (t : String) : Bool :=
  match stored with
  | none => false
  | some s =>
    (s == t) || likeMatch (t.data ++ [',', '%']) s.data ||
      likeMatch ('%' :: ',' :: t.data) s.data ||
      likeMatch ('%' :: ',' :: (t.data ++ [',', '%'])) s.data

/-- `SQLiteProvider.list_migrations`: `SELECT *` with a WHERE clause built
from the truthy filters — `author = :author` when `author` is truthy, the
per-tag `OR` of equality and three `LIKE` patterns when `tags` is truthy,
`created_at >= :created_at` when given — then `ORDER BY created_at DESC`,
each row converted back to a `Revision` (tags split on commas, absent
tags becoming `[]`). -/
def sqlite_list_migrations (db : SDB) (author : Option String)
    (tags : List String) (created_at : Option Nat) : List Revision :=
  (sortDesc (db.rows.filter (fun row =>
      (match author with
       | none => true
       | some a =>
         match a.isEmpty with
         | true => true
         | false => row.author == some a) &&
      (match tags with
       | [] => true
       | _ :: _ => tags.any (fun t => sqliteTagCondition row.tags t)) &&
      (match created_at with
       | none => true
       | some c => decide (c ≤ row.created_at))))).map sqliteRowToRevision

/-- PostgreSQL array overlap `tags && %(tags)s`: false on a NULL column,
otherwise true iff some stored tag is among the requested ones. -/
def pgTagOverlap (stored : Option (List String)) (tags : List String) : Bool :=
  match stored with
  | none => false
  | some ts => ts.any (fun g => tags.contains g)

def pgInsertByDesc (r : PRow) : List PRow → List PRow
  | [] => [r]
  | x :: xs => if x.created_at < r.created_at then r :: x :: xs else x :: pgInsertByDesc r xs

/-- `ORDER BY created_at DESC` over the stored PostgreSQL rows. -/
def pgSortDesc (rows : List PRow) : List PRow := rows.foldr pgInsertByDesc []

/-- `Revision(**row)` in `PostgresProvider.list_migrations`: every column
maps straight onto the model, `up_sql`/`down_sql` take their `None`
defaults. -/
def pgRowToRevision (r : PRow) : Revision :=
  { revision_id := r.revision_id
    down_revision_id := r.down_revision_id
    message := r.message
    tags := r.tags
    author := r.author
    up_sql := none
    down_sql := none
    created_at := r.created_at }

/-- `PostgresProvider.list_migrations`: same WHERE-clause construction
with the tag filter expressed by the array-overlap operator `&&`, then
`ORDER BY created_at DESC`. -/
def pg_list_migrations (db : PDB) (author : Option String)
    (tags : List String) (created_at : Option Nat) : List Revision :=
  (pgSortDesc (db.rows.filter (fun row =>
      (match author with
       | none => true
       | some a =>
         match a.isEmpty with
         | true => true
         | false => row.author == some a) &&
      (match tags with
       | [] => true
       | _ :: _ => pgTagOverlap row.tags tags) &&
      (match created_at with
       | none => true
       | some c => decide (c ≤ row.created_at))))).map pgRowToRevision

/-- A tag is *clean* when it is nonempty and contains no comma, no `LIKE`
wildcard and no uppercase letter. -/
def cleanTagB (t : List Char) : Bool :=
  !t.isEmpty && t.all (fun c => c != ',' && c != '%' && c != '_' && (c.toLower == c))

/-- All comma-separated segments of a stored `tags` column are clean
(trivially true for NULL). -/
def storedCleanB : Option String → Bool
  | none => true
  | some s => (splitCommaL s.data).all cleanTagB

/-! ### Comma-splitting facts -/

theorem splitCommaL_ne_nil (l : List Char) : splitCommaL l ≠ [] := by
  cases l with
  | nil => simp [splitCommaL]
  | cons c rest =>
    simp only [splitCommaL]
    by_cases hc : c = ','
    · simp [hc]
    · simp only [if_neg hc]
      cases h : splitCommaL rest with
      | nil => simp
      | cons seg segs => simp

theorem splitCommaL_append (a b : List Char) :
    splitCommaL (a ++ ',' :: b) = splitCommaL a ++ splitCommaL b := by
  induction a with
  | nil => simp [splitCommaL]
  | cons c a ih =>
    simp only [List.cons_append, splitCommaL]
    by_cases hc : c = ','
    · simp [hc, ih]
    · simp only [if_neg hc]
      simp only [List.append_eq]
      rw [ih]
      cases h : splitCommaL a with
      | nil => exact absurd h (splitCommaL_ne_nil a)
      | cons seg segs => simp [h]

theorem splitCommaL_no_comma (l : List Char) (h : ',' ∉ l) : splitCommaL l = [l] := by
  induction l with
  | nil => rfl
  | cons c rest ih =>
    rw [List.mem_cons] at h
    push_neg at h
    have hc : ¬ c = ',' := fun hh => h.1 hh.symm
    simp only [splitCommaL, if_neg hc, ih h.2]

/-- Inverse of `splitCommaL`: rejoin the segments with commas. -/
def joinComma : List (List Char) → List Char
  | [] => []
  | [s] => s
  | s :: rest => s ++ ',' :: joinComma rest

theorem joinComma_splitCommaL (l : List Char) : joinComma (splitCommaL l) = l := by
  induction l with
  | nil => rfl
  | cons c rest ih =>
    simp only [splitCommaL]
    by_cases hc : c = ','
    · subst hc
      simp only [if_pos rfl]
      cases h : splitCommaL rest with
      | nil => exact absurd h (splitCommaL_ne_nil rest)
      | cons seg segs =>
        rw [h] at ih
        simp only [joinComma, List.nil_append, ih]
    · simp only [if_neg hc]
      cases h : splitCommaL rest with
      | nil => exact absurd h (splitCommaL_ne_nil rest)
      | cons seg segs =>
        rw [h] at ih
        cases segs with
        | nil =>
          simp only [joinComma] at ih ⊢
          rw [ih]
        | cons y ys =>
          simp only [joinComma] at ih ⊢
          rw [List.cons_append, ih]

theorem mem_joinComma (t : List Char) (segs : List (List Char)) (ht : t ∈ segs) :
    joinComma segs = t ∨ (t ++ [',']) <+: joinComma segs ∨
      (',' :: t) <:+ joinComma segs ∨ (',' :: (t ++ [','])) <:+: joinComma segs := by
  induction segs with
  | nil => cases ht
  | cons x segs ih =>
    rcases List.mem_cons.mp ht with rfl | hmem
    · cases segs with
      | nil => exact Or.inl rfl
      | cons y ys =>
        refine Or.inr (Or.inl ⟨joinComma (y :: ys), ?_⟩)
        simp [joinComma]
    · cases segs with
      | nil => cases hmem
      | cons y ys =>
        have hj : joinComma (x :: y :: ys) = x ++ ',' :: joinComma (y :: ys) := by
          simp [joinComma]
        rcases ih hmem with h1 | ⟨v, hv⟩ | ⟨u, hu⟩ | ⟨u, v, huv⟩
        · refine Or.inr (Or.inr (Or.inl ⟨x, ?_⟩))
          rw [hj, h1]
        · refine Or.inr (Or.inr (Or.inr ⟨x, v, ?_⟩))
          rw [hj, ← hv]
          simp
        · refine Or.inr (Or.inr (Or.inl ⟨x ++ ',' :: u, ?_⟩))
          rw [hj, ← hu]
          simp
        · refine Or.inr (Or.inr (Or.inr ⟨x ++ ',' :: u, v, ?_⟩))
          rw [hj, ← huv]
          simp

theorem mem_splitCommaL_iff (t l : List Char) (htne : t ≠ []) (htc : ',' ∉ t) :
    t ∈ splitCommaL l ↔
      (l = t ∨ (t ++ [',']) <+: l ∨ (',' :: t) <:+ l ∨ (',' :: (t ++ [','])) <:+: l) := by
  constructor
  · intro h
    have hm := mem_joinComma t (splitCommaL l) h
    rwa [joinComma_splitCommaL] at hm
  · intro h
    rcases h with h1 | ⟨v, hv⟩ | ⟨u, hu⟩ | ⟨u, v, huv⟩
    · rw [h1, splitCommaL_no_comma t htc]
      simp
    · rw [← hv, show (t ++ [',']) ++ v = t ++ ',' :: v by simp,
        splitCommaL_append t v, splitCommaL_no_comma t htc]
      simp
    · rw [← hu, splitCommaL_append u t, splitCommaL_no_comma t htc]
      simp
    · rw [← huv, show u ++ (',' :: (t ++ [','])) ++ v = u ++ ',' :: (t ++ ',' :: v) by simp,
        splitCommaL_append u (t ++ ',' :: v), splitCommaL_append t v,
        splitCommaL_no_comma t htc]
      simp

theorem mem_splitCommaL_chars (l : List Char) (c : Char) (hc : c ∈ l) :
    c = ',' ∨ ∃ seg ∈ splitCommaL l, c ∈ seg := by
  induction l with
  | nil => cases hc
  | cons d rest ih =>
    by_cases hd : d = ','
    · subst hd
      rcases List.mem_cons.mp hc with rfl | h2
      · exact Or.inl rfl
      · rcases ih h2 with h3 | ⟨seg, hseg, hcs⟩
        · exact Or.inl h3
        · refine Or.inr ⟨seg, ?_, hcs⟩
          simp only [splitCommaL, if_pos rfl]
          exact List.mem_cons_of_mem _ hseg
    · cases hsp : splitCommaL rest with
      | nil => exact absurd hsp (splitCommaL_ne_nil rest)
      | cons seg segs =>
        have hgoal : splitCommaL (d :: rest) = (d :: seg) :: segs := by
          simp only [splitCommaL, if_neg hd, hsp]
        rcases List.mem_cons.mp hc with rfl | h2
        · exact Or.inr ⟨c :: seg, by rw [hgoal]; exact List.mem_cons_self _ _,
            List.mem_cons_self _ _⟩
        · rcases ih h2 with h3 | ⟨seg2, hseg2, hcs⟩
          · exact Or.inl h3
          · rw [hsp] at hseg2
            rcases List.mem_cons.mp hseg2 with rfl | h4
            · exact Or.inr ⟨d :: seg2,
                by rw [hgoal]; exact List.mem_cons_self _ _,
                List.mem_cons_of_mem _ hcs⟩
            · exact Or.inr ⟨seg2, by rw [hgoal]; exact List.mem_cons_of_mem _ h4, hcs⟩

theorem mem_splitComma (s t : String) :
    t ∈ splitComma s ↔ t.data ∈ splitCommaL s.data := by
  unfold splitComma
  rw [List.mem_map]
  constructor
  · rintro ⟨x, hx, rfl⟩
    exact hx
  · intro hx
    exact ⟨t.data, hx, rfl⟩

/-! ### `LIKE` pattern facts -/

theorem likeMatch_nil (s : List Char) : likeMatch [] s = s.isEmpty := by
  conv_lhs => unfold likeMatch

theorem likeMatch_pct_cons (p : List Char) (d : Char) (s : List Char) :
    likeMatch ('%' :: p) (d :: s) = (likeMatch p (d :: s) || likeMatch ('%' :: p) s) := by
  conv_lhs => unfold likeMatch
  rfl

theorem likeMatch_pct_nil (p : List Char) : likeMatch ('%' :: p) [] = likeMatch p [] := by
  conv_lhs => unfold likeMatch
  rfl

theorem likeMatch_lit_cons (c : Char) (p : List Char) (hc : (c == '%') = false)
    (d : Char) (s : List Char) :
    likeMatch (c :: p) (d :: s) =
      (((c == '_') || (c.toLower == d.toLower)) && likeMatch p s) := by
  conv_lhs => unfold likeMatch
  rw [hc]

theorem likeMatch_lit_nil (c : Char) (p : List Char) (hc : (c == '%') = false) :
    likeMatch (c :: p) [] = false := by
  conv_lhs => unfold likeMatch
  rw [hc]

theorem likeMatch_pct_any (s : List Char) : likeMatch ['%'] s = true := by
  induction s with
  | nil => rw [likeMatch_pct_nil, likeMatch_nil]; rfl
  | cons d s ih => rw [likeMatch_pct_cons, ih, Bool.or_true]

theorem likeMatch_exact : ∀ (w : List Char),
    (∀ c ∈ w, (c == '%') = false ∧ (c == '_') = false ∧ c.toLower = c) →
    ∀ (s : List Char), (∀ d ∈ s, d.toLower = d) →
    (likeMatch w s = true ↔ w = s) := by
  intro w
  induction w with
  | nil =>
    intro _ s _
    rw [likeMatch_nil]
    cases s with
    | nil => simp
    | cons d s2 => simp
  | cons c w ih =>
    intro hw s hs
    rcases hw c (List.mem_cons_self _ _) with ⟨hc1, hc2, hc3⟩
    cases s with
    | nil => rw [likeMatch_lit_nil c w hc1]; simp
    | cons d s2 =>
      rw [likeMatch_lit_cons c w hc1 d s2, hc2, Bool.false_or, hc3,
        hs d (List.mem_cons_self _ _)]
      rw [Bool.and_eq_true, beq_iff_eq,
        ih (fun x hx => hw x (List.mem_cons_of_mem _ hx)) s2
          (fun x hx => hs x (List.mem_cons_of_mem _ hx))]
      simp

theorem likeMatch_starts : ∀ (w : List Char),
    (∀ c ∈ w, (c == '%') = false ∧ (c == '_') = false ∧ c.toLower = c) →
    ∀ (s : List Char), (∀ d ∈ s, d.toLower = d) →
    (likeMatch (w ++ ['%']) s = true ↔ w <+: s) := by
  intro w
  induction w with
  | nil =>
    intro _ s _
    simp only [List.nil_append]
    simp [likeMatch_pct_any, List.nil_prefix]
  | cons c w ih =>
    intro hw s hs
    rcases hw c (List.mem_cons_self _ _) with ⟨hc1, hc2, hc3⟩
    cases s with
    | nil =>
      rw [List.cons_append, likeMatch_lit_nil c (w ++ ['%']) hc1]
      simp
    | cons d s2 =>
      rw [List.cons_append, likeMatch_lit_cons c (w ++ ['%']) hc1 d s2, hc2,
        Bool.false_or, hc3, hs d (List.mem_cons_self _ _)]
      rw [Bool.and_eq_true, beq_iff_eq,
        ih (fun x hx => hw x (List.mem_cons_of_mem _ hx)) s2
          (fun x hx => hs x (List.mem_cons_of_mem _ hx))]
      rw [List.cons_prefix_cons]

theorem likeMatch_suffix (w : List Char)
    (hw : ∀ c ∈ w, (c == '%') = false ∧ (c == '_') = false ∧ c.toLower = c) :
    ∀ (s : List Char), (∀ d ∈ s, d.toLower = d) →
    (likeMatch ('%' :: w) s = true ↔ w <:+ s) := by
  intro s
  induction s with
  | nil =>
    intro _
    rw [likeMatch_pct_nil]
    rw [likeMatch_exact w hw [] (by intro d hd; cases hd)]
    rw [List.suffix_nil]
  | cons d s2 ih =>
    intro hs
    rw [likeMatch_pct_cons, Bool.or_eq_true,
      likeMatch_exact w hw (d :: s2) hs,
      ih (fun x hx => hs x (List.mem_cons_of_mem _ hx)),
      List.suffix_cons_iff]

theorem likeMatch_within (w : List Char)
    (hw : ∀ c ∈ w, (c == '%') = false ∧ (c == '_') = false ∧ c.toLower = c) :
    ∀ (s : List Char), (∀ d ∈ s, d.toLower = d) →
    (likeMatch ('%' :: (w ++ ['%'])) s = true ↔ w <:+: s) := by
  intro s
  induction s with
  | nil =>
    intro _
    rw [likeMatch_pct_nil]
    rw [likeMatch_starts w hw [] (by intro d hd; cases hd)]
    rw [List.prefix_nil, List.infix_nil]
  | cons d s2 ih =>
    intro hs
    rw [likeMatch_pct_cons, Bool.or_eq_true,
      likeMatch_starts w hw (d :: s2) hs,
      ih (fun x hx => hs x (List.mem_cons_of_mem _ hx)),
      List.infix_cons_iff]

/-! ### The SQLite tag filter against set intersection -/

theorem cleanTagB_spec (t : List Char) (h : cleanTagB t = true) :
    t ≠ [] ∧ ∀ c ∈ t, (c == '%') = false ∧ (c == '_') = false ∧
      c ≠ ',' ∧ c.toLower = c := by
  unfold cleanTagB at h
  rw [Bool.and_eq_true, List.all_eq_true] at h
  refine ⟨?_, ?_⟩
  · intro hnil
    rw [hnil] at h
    simp at h
  · intro c hc
    have h2 := h.2 c hc
    rw [Bool.and_eq_true, Bool.and_eq_true, Bool.and_eq_true] at h2
    rcases h2 with ⟨⟨⟨h3, h4⟩, h5⟩, h6⟩
    exact ⟨beq_eq_false_iff_ne.mpr (bne_iff_ne.mp h4),
      beq_eq_false_iff_ne.mpr (bne_iff_ne.mp h5),
      bne_iff_ne.mp h3, eq_of_beq h6⟩

theorem storedClean_chars (s : String)
    (h : (splitCommaL s.data).all cleanTagB = true) :
    ∀ d ∈ s.data, d.toLower = d := by
  intro d hd
  rcases mem_splitCommaL_chars s.data d hd with rfl | ⟨seg, hseg, hdm⟩
  · decide
  · rw [List.all_eq_true] at h
    exact ((cleanTagB_spec seg (h seg hseg)).2 d hdm).2.2.2

theorem sqliteTagCondition_iff (s t : String)
    (ht : cleanTagB t.data = true)
    (hs : (splitCommaL s.data).all cleanTagB = true) :
    (sqliteTagCondition (some s) t = true ↔ t ∈ splitComma s) := by
  rcases cleanTagB_spec t.data ht with ⟨htne, htc⟩
  have htlower : ∀ d ∈ s.data, d.toLower = d := storedClean_chars s hs
  have hcomma : (',' : Char) ∉ t.data := fun hh => (htc ',' hh).2.2.1 rfl
  have hwt : ∀ c ∈ t.data, (c == '%') = false ∧ (c == '_') = false ∧ c.toLower = c :=
    fun c hc => ⟨(htc c hc).1, (htc c hc).2.1, (htc c hc).2.2.2⟩
  have hwc : ((',' : Char) == '%') = false ∧ ((',' : Char) == '_') = false ∧
      (',' : Char).toLower = ',' := by decide
  have hw1 : ∀ c ∈ t.data ++ [','],
      (c == '%') = false ∧ (c == '_') = false ∧ c.toLower = c := by
    intro c hc
    rcases List.mem_append.mp hc with h1 | h1
    · exact hwt c h1
    · rcases List.mem_singleton.mp h1 with rfl
      exact hwc
  have hw2 : ∀ c ∈ ',' :: t.data,
      (c == '%') = false ∧ (c == '_') = false ∧ c.toLower = c := by
    intro c hc
    rcases List.mem_cons.mp hc with rfl | h1
    · exact hwc
    · exact hwt c h1
  have hw3 : ∀ c ∈ ',' :: (t.data ++ [',']),
      (c == '%') = false ∧ (c == '_') = false ∧ c.toLower = c := by
    intro c hc
    rcases List.mem_cons.mp hc with rfl | h1
    · exact hwc
    · exact hw1 c h1
  show ((s == t) || likeMatch (t.data ++ [',', '%']) s.data ||
      likeMatch ('%' :: ',' :: t.data) s.data ||
      likeMatch ('%' :: ',' :: (t.data ++ [',', '%'])) s.data) = true ↔ _
  rw [show t.data ++ [',', '%'] = (t.data ++ [',']) ++ ['%'] by simp]
  rw [show ('%' :: ',' :: (t.data ++ [','] ++ ['%'])) =
      ('%' :: ((',' :: (t.data ++ [','])) ++ ['%'])) by simp]
  rw [Bool.or_eq_true, Bool.or_eq_true, Bool.or_eq_true]
  rw [likeMatch_starts (t.data ++ [',']) hw1 s.data htlower]
  rw [likeMatch_suffix (',' :: t.data) hw2 s.data htlower]
  rw [likeMatch_within (',' :: (t.data ++ [','])) hw3 s.data htlower]
  rw [beq_iff_eq, mem_splitComma s t,
    mem_splitCommaL_iff t.data s.data htne hcomma, String.ext_iff]
  rw [or_assoc, or_assoc]

/-- C8 (amended): with a nonempty requested tag list `T` of clean tags
(nonempty, no comma, no `LIKE` wildcard, no uppercase letter) and clean
stored tag segments, `list_migrations(tags=T)` returns exactly the
applied revisions whose stored tag set (the comma-split of the stored
column for SQLite, the stored array for PostgreSQL; NULL means no tags)
has non-empty intersection with `T`, ordered by `created_at` descending.
Without the cleanliness restriction the SQLite expansion over-matches
(see `c8_counterexample`). -/
theorem c8_theorem (db : SDB) (pdb : PDB) (T : List String)
    (hT : T ≠ [])
    (hTclean : T.all (fun t => cleanTagB t.data) = true)
    (hrows : db.rows.all (fun row => storedCleanB row.tags) = true) :
    sqlite_list_migrations db none T none =
      (sortDesc (db.rows.filter (fun row =>
        match row.tags with
        | none => false
        | some s => (splitComma s).any (fun g => T.contains g)))).map sqliteRowToRevision ∧
    pg_list_migrations pdb none T none =
      (pgSortDesc (pdb.rows.filter (fun row =>
        match row.tags with
        | none => false
        | some ts => ts.any (fun g => T.contains g)))).map pgRowToRevision := by
  cases T with
  | nil => exact absurd rfl hT
  | cons t0 T2 =>
  rw [List.all_eq_true] at hTclean hrows
  constructor
  · unfold sqlite_list_migrations
    rw [List.filter_congr ?_]
    intro row hrow
    show (true && ((t0 :: T2).any (fun t => sqliteTagCondition row.tags t)) && true) = _
    rw [Bool.true_and, Bool.and_true]
    cases hrt : row.tags with
    | none =>
      show ((t0 :: T2).any (fun t => sqliteTagCondition none t)) = false
      simp [sqliteTagCondition]
    | some s =>
      have hsclean : (splitCommaL s.data).all cleanTagB = true := by
        have h2 := hrows row hrow
        rw [hrt] at h2
        exact h2
      have hiff : ∀ t ∈ t0 :: T2,
          (sqliteTagCondition (some s) t = true ↔ t ∈ splitComma s) :=
        fun t htm => sqliteTagCondition_iff s t (hTclean t htm) hsclean
      rw [Bool.eq_iff_iff, List.any_eq_true, List.any_eq_true]
      constructor
      · rintro ⟨t, htm, hcond⟩
        exact ⟨t, (hiff t htm).mp hcond, List.elem_eq_true_of_mem htm⟩
      · rintro ⟨g, hg, hgm⟩
        have hgmem : g ∈ t0 :: T2 := List.mem_of_elem_eq_true hgm
        exact ⟨g, hgmem, (hiff g hgmem).mpr hg⟩
  · unfold pg_list_migrations
    rw [List.filter_congr ?_]
    intro row _
    show (true && pgTagOverlap row.tags (t0 :: T2) && true) = _
    rw [Bool.true_and, Bool.and_true]
    rfl

/-- An applied row whose stored tags column is the comma-join of the two
tags `a` and `b`. -/
def cexRowC8 : SRow :=
  { revision_id := "r1", down_revision_id := none, message := "m",
    tags := some "a,b", author := none, created_at := 0 }

def cexDbC8 : SDB :=
  { tableExists := true, rows := [cexRowC8], userLog := [], clock := 1 }

/-- C8 counterexample: the claim says `list_migrations(tags=T)` returns
exactly the revisions whose stored tag set intersects `T`.  With stored
tags `{a, b}` (column text `a,b`) and the single requested tag `a,b`,
the intersection is empty — `a,b` is not a stored tag — yet the SQLite
expansion matches through its `tags = :tag` equality disjunct and the
row is returned. -/
theorem c8_counterexample :
    sqlite_list_migrations cexDbC8 none ["a,b"] none =
      [sqliteRowToRevision cexRowC8] ∧
    ((splitComma "a,b").any (fun g => (["a,b"] : List String).contains g)) = false := by
  exact ⟨rfl, rfl⟩

def wRow1C8 : SRow :=
  { revision_id := "r1", down_revision_id := none, message := "first",
    tags := some "beta", author := none, created_at := 1 }

def wRow2C8 : SRow :=
  { revision_id := "r2", down_revision_id := some "r1", message := "second",
    tags := some "alpha,beta", author := none, created_at := 5 }

def wRow3C8 : SRow :=
  { revision_id := "r3", down_revision_id := some "r2", message := "third",
    tags := some "gamma", author := none, created_at := 9 }

def wDbC8 : SDB :=
  { tableExists := true, rows := [wRow1C8, wRow2C8, wRow3C8], userLog := [], clock := 10 }

def wPRow1C8 : PRow :=
  { revision_id := "p1", down_revision_id := none, message := "first",
    tags := some ["x", "beta"], author := none, created_at := 3 }

def wPRow2C8 : PRow :=
  { revision_id := "p2", down_revision_id := some "p1", message := "second",
    tags := some ["alpha"], author := none, created_at := 7 }

def wPRow3C8 : PRow :=
  { revision_id := "p3", down_revision_id := some "p2", message := "third",
    tags := none, author := none, created_at := 8 }

def wPdbC8 : PDB :=
  { tableExists := true, rows := [wPRow1C8, wPRow2C8, wPRow3C8], userLog := [], clock := 9 }

/-- Witness for C8: on clean tags, `list_migrations(tags=["beta"])`
returns exactly the rows tagged `beta` — `r2` (tags `alpha,beta`) before
`r1` (tags `beta`), in `created_at`-descending order — and the
PostgreSQL provider returns exactly the overlap row `p1`. -/
theorem c8_witness :
    sqlite_list_migrations wDbC8 none ["beta"] none =
      [sqliteRowToRevision wRow2C8, sqliteRowToRevision wRow1C8] ∧
    pg_list_migrations wPdbC8 none ["beta"] none = [pgRowToRevision wPRow1C8] := by
  have h := c8_theorem wDbC8 wPdbC8 ["beta"] (by decide) (by decide) (by decide)
  constructor
  · rw [h.1]
    rfl
  · rw [h.2]
    rfl
